import Mathlib

/-!
Shallow embedding of the ApplicationSet generator-expansion and
template-substitution engine of `src/appset.py` and `src/models.py`.

Modelling conventions:
* Python strings are modelled as `List Char` (`Str`); Python compares
  strings by code point, as does the `Char` order.
* Python `dict` objects are modelled as insertion-ordered association
  lists (`List (Str × v)`): assignment to an existing key replaces the
  value in place, assignment to a fresh key appends at the end, exactly
  like a CPython dict.
* YAML/JSON scalars and collections are modelled by `JValue`
  (numbers restricted to integers; no claim touches floats).
* Filesystem globbing and file reading are external I/O performed by
  `_find_matching_directories` / `_find_matching_files` / `read_text`;
  they are modelled as abstract match functions supplied as arguments,
  and a file's read-and-parse outcome is modelled as an
  `Option (List (Str × JValue))` (`none` for an unparseable or
  non-record document).
-/

/-- Python strings, as lists of code points. -/
abbrev Str := List Char

/-- Python `dict` lookup `m.get(k)` on an insertion-ordered association
list (keys are unique by construction, so the first hit is the value). -/
def alistGet {v : Type} (m : List (Str × v)) (k : Str) : Option v :=
  match m with
  | [] => none
  | (k₀, v₀) :: rest => if k₀ = k then some v₀ else alistGet rest k

/-- Python `k in m` membership test on a dict. -/
def alistContains {v : Type} (m : List (Str × v)) (k : Str) : Bool :=
  (alistGet m k).isSome

/-- Python `m[k] = x` dict assignment: replace in place when the key is
present, append otherwise. -/
def alistSet {v : Type} (m : List (Str × v)) (k : Str) (x : v) : List (Str × v) :=
  match m with
  | [] => [(k, x)]
  | (k₀, v₀) :: rest => if k₀ = k then (k₀, x) :: rest else (k₀, v₀) :: alistSet rest k x

/-- Python `m.update(o)` dict update: assign every pair of `o` into `m`
in order (later pairs win). -/
def alistUpdate {v : Type} (m o : List (Str × v)) : List (Str × v) :=
  o.foldl (fun acc kv => alistSet acc kv.1 kv.2) m

/-- Python `dict(items)`: build a dict from a pair sequence, later
duplicate keys overriding earlier ones in place. -/
def alistFromPairs {v : Type} (l : List (Str × v)) : List (Str × v) :=
  alistUpdate [] l

/-- A YAML/JSON-like value: the `Any` values flowing through
`appset.py`.  Numbers are modelled as integers. -/
inductive JValue where
  | str (s : Str)
  | num (n : Int)
  | bool (b : Bool)
  | null
  | arr (items : List JValue)
  | obj (fields : List (Str × JValue))

-- Structural Boolean equality on `JValue` (used to derive decidable
-- equality, which the nested inductive cannot auto-derive).
mutual
def jvalueBEq : JValue → JValue → Bool
  | .str a, .str b => a = b
  | .num a, .num b => a = b
  | .bool a, .bool b => a = b
  | .null, .null => true
  | .arr a, .arr b => jlistBEq a b
  | .obj a, .obj b => jfieldsBEq a b
  | _, _ => false
def jlistBEq : List JValue → List JValue → Bool
  | [], [] => true
  | a :: as, b :: bs => jvalueBEq a b && jlistBEq as bs
  | _, _ => false
def jfieldsBEq : List (Str × JValue) → List (Str × JValue) → Bool
  | [], [] => true
  | (k, a) :: as, (k₂, b) :: bs => decide (k = k₂) && jvalueBEq a b && jfieldsBEq as bs
  | _, _ => false
end

mutual
theorem jvalueBEq_refl : ∀ a, jvalueBEq a a = true
  | .str s => by simp [jvalueBEq]
  | .num n => by simp [jvalueBEq]
  | .bool b => by simp [jvalueBEq]
  | .null => by simp [jvalueBEq]
  | .arr items => by simp [jvalueBEq]; exact jlistBEq_refl items
  | .obj fields => by simp [jvalueBEq]; exact jfieldsBEq_refl fields
theorem jlistBEq_refl : ∀ l, jlistBEq l l = true
  | [] => by simp [jlistBEq]
  | a :: as => by simp [jlistBEq]; exact ⟨jvalueBEq_refl a, jlistBEq_refl as⟩
theorem jfieldsBEq_refl : ∀ l, jfieldsBEq l l = true
  | [] => by simp [jfieldsBEq]
  | (k, a) :: as => by simp [jfieldsBEq]; exact ⟨jvalueBEq_refl a, jfieldsBEq_refl as⟩
end

mutual
theorem jvalueBEq_eq : ∀ a b, jvalueBEq a b = true → a = b
  | .str a, .str b => by simp [jvalueBEq]
  | .num a, .num b => by simp [jvalueBEq]
  | .bool a, .bool b => by simp [jvalueBEq]
  | .null, .null => by simp
  | .arr a, .arr b => by
      simp [jvalueBEq]; intro h; exact jlistBEq_eq a b h
  | .obj a, .obj b => by
      simp [jvalueBEq]; intro h; exact jfieldsBEq_eq a b h
  | .str _, .num _ => by simp [jvalueBEq]
  | .str _, .bool _ => by simp [jvalueBEq]
  | .str _, .null => by simp [jvalueBEq]
  | .str _, .arr _ => by simp [jvalueBEq]
  | .str _, .obj _ => by simp [jvalueBEq]
  | .num _, .str _ => by simp [jvalueBEq]
  | .num _, .bool _ => by simp [jvalueBEq]
  | .num _, .null => by simp [jvalueBEq]
  | .num _, .arr _ => by simp [jvalueBEq]
  | .num _, .obj _ => by simp [jvalueBEq]
  | .bool _, .str _ => by simp [jvalueBEq]
  | .bool _, .num _ => by simp [jvalueBEq]
  | .bool _, .null => by simp [jvalueBEq]
  | .bool _, .arr _ => by simp [jvalueBEq]
  | .bool _, .obj _ => by simp [jvalueBEq]
  | .null, .str _ => by simp [jvalueBEq]
  | .null, .num _ => by simp [jvalueBEq]
  | .null, .bool _ => by simp [jvalueBEq]
  | .null, .arr _ => by simp [jvalueBEq]
  | .null, .obj _ => by simp [jvalueBEq]
  | .arr _, .str _ => by simp [jvalueBEq]
  | .arr _, .num _ => by simp [jvalueBEq]
  | .arr _, .bool _ => by simp [jvalueBEq]
  | .arr _, .null => by simp [jvalueBEq]
  | .arr _, .obj _ => by simp [jvalueBEq]
  | .obj _, .str _ => by simp [jvalueBEq]
  | .obj _, .num _ => by simp [jvalueBEq]
  | .obj _, .bool _ => by simp [jvalueBEq]
  | .obj _, .null => by simp [jvalueBEq]
  | .obj _, .arr _ => by simp [jvalueBEq]
theorem jlistBEq_eq : ∀ a b, jlistBEq a b = true → a = b
  | [], [] => by simp
  | a :: as, b :: bs => by
      simp [jlistBEq]
      intro h₁ h₂
      exact ⟨jvalueBEq_eq a b h₁, jlistBEq_eq as bs h₂⟩
  | [], _ :: _ => by simp [jlistBEq]
  | _ :: _, [] => by simp [jlistBEq]
theorem jfieldsBEq_eq : ∀ a b, jfieldsBEq a b = true → a = b
  | [], [] => by simp
  | (k, a) :: as, (k₂, b) :: bs => by
      simp [jfieldsBEq]
      intro hk h₁ h₂
      exact ⟨⟨hk, jvalueBEq_eq a b h₁⟩, jfieldsBEq_eq as bs h₂⟩
  | [], _ :: _ => by simp [jfieldsBEq]
  | _ :: _, [] => by simp [jfieldsBEq]
end

instance : DecidableEq JValue := fun a b =>
  decidable_of_iff (jvalueBEq a b = true)
    ⟨jvalueBEq_eq a b, fun h => h ▸ jvalueBEq_refl a⟩

instance : Inhabited JValue := ⟨.null⟩

/-- A parameter set: the flat dot-keyed Python dict produced by the
generators (`dict[str, Any]` in `appset.py`). -/
abbrev ParamSet := List (Str × JValue)

@[instance] abbrev instBEqParamSet : BEq ParamSet := instBEqOfDecidableEq

-- Python `repr()` of a parsed YAML/JSON value (ASCII approximation:
-- string escaping is not modelled; no claim exercises it).
mutual
def pyRepr : JValue → Str
  | .str s => '\'' :: s ++ ['\'']
  | .num n => (toString n).data
  | .bool true => "True".data
  | .bool false => "False".data
  | .null => "None".data
  | .arr items => '[' :: List.intercalate ", ".data (pyReprList items) ++ [']']
  | .obj fields => '\x7b' :: List.intercalate ", ".data (pyReprFields fields) ++ ['\x7d']
def pyReprList : List JValue → List Str
  | [] => []
  | x :: xs => pyRepr x :: pyReprList xs
def pyReprFields : List (Str × JValue) → List Str
  | [] => []
  | (k, x) :: xs => (('\'' :: k ++ ['\'']) ++ ": ".data ++ pyRepr x) :: pyReprFields xs
end

/-- Python `str()` of a parsed YAML/JSON value. -/
def pyStr : JValue → Str
  | .str s => s
  | .num n => (toString n).data
  | .bool true => "True".data
  | .bool false => "False".data
  | .null => "None".data
  | .arr items => pyRepr (.arr items)
  | .obj fields => pyRepr (.obj fields)

/-- The item-collection loop of `_flatten_dict` (`appset.py` lines
407-418): descend into dict values joining keys with `"."`, keep every
other value as a leaf.  `dict(items).items()` for a nested dict is
`alistFromPairs` of the recursive result. -/
def flattenPairs : List (Str × JValue) → Str → List (Str × JValue)
  | [], _ => []
  | (k, v) :: rest, parentKey =>
    let newKey := if parentKey = [] then k else parentKey ++ '.' :: k
    (match v with
     | .obj sub => alistFromPairs (flattenPairs sub newKey)
     | other => [(newKey, other)]) ++ flattenPairs rest parentKey

/-- `_flatten_dict` (`appset.py` lines 407-418): flatten a nested dict
into dot-separated keys; the final `dict(items)` call deduplicates. -/
def _flatten_dict (d : List (Str × JValue)) : List (Str × JValue) :=
  alistFromPairs (flattenPairs d [])

/-- Python `text.replace(pat, rep)` for a non-empty pattern: replace
every occurrence left to right, non-overlapping.  (`str.replace` with an
empty pattern never occurs here: the call sites always pass a pattern of
the form `"\x7b\x7b" + key + "\x7d\x7d"`.) -/
def replaceAll (pat rep : Str) : Str → Str
  | [] => []
  | c :: rest =>
    if h : pat ≠ [] ∧ pat.isPrefixOf (c :: rest) then
      rep ++ replaceAll pat rep ((c :: rest).drop pat.length)
    else
      c :: replaceAll pat rep rest
termination_by s => s.length
decreasing_by
  · simp only [List.length_drop, List.length_cons]
    have : 0 < pat.length := List.length_pos.mpr h.1
    omega
  · simp

/-- The descending-length key order used by `substitute_params`
(`models.py` line 246): Python `sorted(keys, key=len, reverse=True)`. -/
def keyLenGe (a b : Str) : Prop := b.length ≤ a.length

instance : DecidableRel keyLenGe := fun a b => Nat.decLe b.length a.length

instance : IsTotal Str keyLenGe :=
  ⟨fun a b => (Nat.le_total b.length a.length).elim Or.inl Or.inr⟩

instance : IsTrans Str keyLenGe :=
  ⟨fun _ _ _ h₁ h₂ => Nat.le_trans h₂ h₁⟩

/-- The template placeholder token `"\x7b\x7b" + key + "\x7d\x7d"`
(`models.py` line 249). -/
def placeholderToken (key : Str) : Str :=
  '\x7b' :: '\x7b' :: key ++ ['\x7d', '\x7d']

/-- `substitute_params` (`models.py` lines 236-253): for every parameter
key, longest key first (stable on ties, like Python `sorted` with
`reverse=True`), replace every literal occurrence of the placeholder
token with `str(params[key])`.  The key is always present in `params`,
so the `.getD .null` default is never taken. -/
def substitute_params (text : Str) (params : ParamSet) : Str :=
  (List.insertionSort keyLenGe (params.map Prod.fst)).foldl
    (fun result key =>
      replaceAll (placeholderToken key) (pyStr ((alistGet params key).getD .null)) result)
    text

-- `substitute_params_deep` (`models.py` lines 256-264): strings are
-- substituted, dict values and list elements are recursed into, every
-- other value is returned unchanged.
mutual
def substitute_params_deep (params : ParamSet) : JValue → JValue
  | .str s => .str (substitute_params s params)
  | .obj fields => .obj (substFields params fields)
  | .arr items => .arr (substItems params items)
  | .num n => .num n
  | .bool b => .bool b
  | .null => .null
def substFields (params : ParamSet) : List (Str × JValue) → List (Str × JValue)
  | [] => []
  | (k, v) :: rest => (k, substitute_params_deep params v) :: substFields params rest
def substItems (params : ParamSet) : List JValue → List JValue
  | [] => []
  | v :: rest => substitute_params_deep params v :: substItems params rest
end

/-- The character class `[a-zA-Z0-9-]` of the regex in `_normalize_name`
(`appset.py` line 426), as a predicate on code points. -/
def isAllowedChar (c : Char) : Bool :=
  (65 ≤ c.toNat && c.toNat ≤ 90) || (97 ≤ c.toNat && c.toNat ≤ 122) ||
    (48 ≤ c.toNat && c.toNat ≤ 57) || c.toNat == 45

/-- Python `str.lower()` restricted to one character.  `_normalize_name`
only lowercases characters drawn from `[a-zA-Z0-9-]`, where Python's
Unicode lowercasing coincides with the ASCII shift by 32. -/
def pyLowerChar (c : Char) : Char :=
  if h : 65 ≤ c.toNat ∧ c.toNat ≤ 90 then
    ⟨⟨⟨c.toNat + 32, by omega⟩⟩, by
      simp only [UInt32.isValidChar, Nat.isValidChar, UInt32.toNat, BitVec.toNat]
      omega⟩
  else c

/-- Python `s.strip("-")`: drop leading and trailing runs of `'-'`. -/
def stripDashes (s : Str) : Str :=
  ((s.dropWhile (· = '-')).reverse.dropWhile (· = '-')).reverse

/-- `_normalize_name` (`appset.py` lines 421-426):
`re.sub(r"[^a-zA-Z0-9-]", "-", name).strip("-").lower()`. -/
def _normalize_name (name : Str) : Str :=
  (stripDashes (name.map (fun c => if isAllowedChar c then c else '-'))).map pyLowerChar

/-- `str(params.get(key, ""))` — the string view of a parameter value
used by the selector and the merge key (missing key reads as `""`). -/
def paramStrValue (params : ParamSet) (k : Str) : Str :=
  match alistGet params k with
  | some v => pyStr v
  | none => []

/-- One `matchExpressions` entry: `expr.get("key", "")`,
`expr.get("operator", "")`, `expr.get("values", [])`
(`appset.py` lines 457-459). -/
structure MatchExpr where
  key : Str
  operator : Str
  values : List JValue

/-- A label selector: `selector.get("matchLabels", {})` and
`selector.get("matchExpressions", [])` (`appset.py` lines 434-435). -/
structure Selector where
  matchLabels : List (Str × JValue)
  matchExpressions : List MatchExpr

/-- The `matchLabels` loop of `_matches_selector` (`appset.py` lines
450-453): every entry must equal the parameter's string value, else the
whole check returns `False` early. -/
def checkMatchLabels (params : ParamSet) : List (Str × JValue) → Bool
  | [] => true
  | (k, v) :: rest =>
    if paramStrValue params k ≠ pyStr v then false else checkMatchLabels params rest

/-- The `matchExpressions` loop of `_matches_selector` (`appset.py`
lines 455-473): an `elif` chain per operator; an unknown operator falls
through without any effect. -/
def checkMatchExpressions (params : ParamSet) : List MatchExpr → Bool
  | [] => true
  | e :: rest =>
    let pv := paramStrValue params e.key
    if e.operator = "In".data then
      if pv ∈ e.values.map pyStr then checkMatchExpressions params rest else false
    else if e.operator = "NotIn".data then
      if pv ∈ e.values.map pyStr then false else checkMatchExpressions params rest
    else if e.operator = "Exists".data then
      if alistContains params e.key then checkMatchExpressions params rest else false
    else if e.operator = "DoesNotExist".data then
      if alistContains params e.key then false else checkMatchExpressions params rest
    else checkMatchExpressions params rest

/-- `_matches_selector` (`appset.py` lines 444-475). -/
def _matches_selector (params : ParamSet) (matchLabels : List (Str × JValue))
    (matchExpressions : List MatchExpr) : Bool :=
  checkMatchLabels params matchLabels && checkMatchExpressions params matchExpressions

/-- `_apply_selector` (`appset.py` lines 429-441). -/
def _apply_selector (params : List ParamSet) (selector : Selector) : List ParamSet :=
  params.filter (fun p => _matches_selector p selector.matchLabels selector.matchExpressions)

/-- `str(path).split("/")` — the `/`-delimited components of a relative
path (`appset.py` line 183). -/
def pathSegments (s : Str) : List Str := s.splitOn '/'

/-- Python `Path(s).name`: the final path component (`""` for `"."`).
The model assumes normalized relative paths, as produced by
`Path.relative_to` and by globbing. -/
def pathBasename (s : Str) : Str :=
  if s = ".".data then [] else (pathSegments s).getLastD []

/-- Python `Path(s).parent` of a normalized relative path:
all components but the last, `"."` when there is none. -/
def pathParent (s : Str) : Str :=
  match (pathSegments s).dropLast with
  | [] => ".".data
  | comps => List.intercalate ['/'] comps

/-- Python's `PurePath` order (used by `sorted` on paths): compare the
`/`-split component tuples lexicographically, components by code point. -/
def pathLe (a b : Str) : Prop := pathSegments a ≤ pathSegments b

instance : DecidableRel pathLe := fun a b =>
  inferInstanceAs (Decidable (pathSegments a ≤ pathSegments b))

instance : IsTotal Str pathLe :=
  ⟨fun a b => le_total (pathSegments a) (pathSegments b)⟩

instance : IsTrans Str pathLe :=
  ⟨fun _ _ _ h₁ h₂ => le_trans h₁ h₂⟩

/-- One entry of the `directories` (or `files`) config list:
`entry.get("path", "")` and the truthiness of
`entry.get("exclude", False)`. -/
structure DirEntry where
  path : Str
  exclude : Bool

/-- Python `set.add` on a list-modelled set (insertion ordered;
`sorted()` later erases the order). -/
def setAdd (s : List Str) (x : Str) : List Str :=
  if x ∈ s then s else s ++ [x]

/-- Python `set.update` — `matched_dirs.update(matched)`
(`appset.py` line 170). -/
def setUpdate (s : List Str) (xs : List Str) : List Str :=
  xs.foldl setAdd s

/-- Python `set -= other` — `matched_dirs -= excluded`
(`appset.py` line 175). -/
def setSub (s : List Str) (xs : List Str) : List Str :=
  s.filter (fun y => y ∉ xs)

/-- The include/exclude matching of `_expand_git_directory_generator`
(`appset.py` lines 153-175): partition the entries by the `exclude`
flag, union all include matches, then subtract all exclude matches.
`matchF` abstracts `_find_matching_directories(pattern, base_path)`,
the filesystem glob (external I/O). -/
def matchedDirsOf (entries : List DirEntry) (matchF : Str → List Str) : List Str :=
  let includePatterns := (entries.filter (fun e => !e.exclude)).map DirEntry.path
  let excludePatterns := (entries.filter (fun e => e.exclude)).map DirEntry.path
  let included := includePatterns.foldl (fun s pat => setUpdate s (matchF pat)) []
  excludePatterns.foldl (fun s pat => setSub s (matchF pat)) included

/-- The parameter dict built for one matched directory
(`appset.py` lines 178-202): the dict literal of the four prefixed and
four unprefixed path keys, then one prefixed and one unprefixed
`path.segments.<i>` assignment per component. -/
def dirParams (pfx : Str) (dirPath : Str) : ParamSet :=
  let pfxDot : Str := if pfx = [] then [] else pfx ++ ['.']
  let pathStr := dirPath
  let basename := pathBasename dirPath
  let basenameNormalized := _normalize_name basename
  let segments := pathSegments pathStr
  let base := alistFromPairs
    [(pfxDot ++ "path".data, .str pathStr),
     (pfxDot ++ "path.path".data, .str pathStr),
     (pfxDot ++ "path.basename".data, .str basename),
     (pfxDot ++ "path.basenameNormalized".data, .str basenameNormalized),
     ("path".data, .str pathStr),
     ("path.path".data, .str pathStr),
     ("path.basename".data, .str basename),
     ("path.basenameNormalized".data, .str basenameNormalized)]
  segments.enum.foldl
    (fun p iseg =>
      alistSet
        (alistSet p (pfxDot ++ "path.segments.".data ++ (toString iseg.1).data)
          (.str iseg.2))
        ("path.segments.".data ++ (toString iseg.1).data) (.str iseg.2))
    base

/-- `_expand_git_directory_generator` (`appset.py` lines 147-204):
one parameter set per surviving directory, in sorted path order. -/
def _expand_git_directory_generator (entries : List DirEntry) (matchF : Str → List Str)
    (pfx : Str) : List ParamSet :=
  (List.insertionSort pathLe (matchedDirsOf entries matchF)).map (dirParams pfx)

/-- One file matched by a `files` pattern, with the outcome of
`read_text` + YAML/JSON parsing + the `isinstance(data, dict)` check
(`appset.py` lines 222-233) collapsed into an `Option`: `none` models a
file that failed to parse or did not hold a record (both are skipped
with a logged diagnostic). -/
structure ResolvedFile where
  relPath : Str
  parsed : Option (List (Str × JValue))

/-- The order `sorted(matched_files)` uses, lifted to resolved files
(paths share the base directory, so comparing relative parts agrees
with comparing the absolute paths). -/
def fileLe (a b : ResolvedFile) : Prop := pathLe a.relPath b.relPath

instance : DecidableRel fileLe := fun a b =>
  inferInstanceAs (Decidable (pathLe a.relPath b.relPath))

/-- The parameter dict built for one parsed file (`appset.py` lines
235-259): flatten the record, then `flat.update({...})` with six
prefixed and six unprefixed path keys. -/
def fileParams (pfx : Str) (f : ResolvedFile) (data : List (Str × JValue)) : ParamSet :=
  let flat := _flatten_dict data
  let pathStr := f.relPath
  let parent := pathParent f.relPath
  let parentName := pathBasename parent
  let fileName := pathBasename f.relPath
  let pfxDot : Str := if pfx = [] then [] else pfx ++ ['.']
  alistUpdate flat
    [(pfxDot ++ "path".data, .str pathStr),
     (pfxDot ++ "path.path".data, .str parent),
     (pfxDot ++ "path.basename".data, .str parentName),
     (pfxDot ++ "path.basenameNormalized".data, .str (_normalize_name parentName)),
     (pfxDot ++ "path.filename".data, .str fileName),
     (pfxDot ++ "path.filenameNormalized".data, .str (_normalize_name fileName)),
     ("path".data, .str pathStr),
     ("path.path".data, .str parent),
     ("path.basename".data, .str parentName),
     ("path.basenameNormalized".data, .str (_normalize_name parentName)),
     ("path.filename".data, .str fileName),
     ("path.filenameNormalized".data, .str (_normalize_name fileName))]

/-- The inner file loop of `_expand_git_file_generator` (`appset.py`
lines 222-261): a file whose parse failed (or whose document is not a
record) is skipped and the loop continues. -/
def expandFileList (pfx : Str) : List ResolvedFile → List ParamSet
  | [] => []
  | f :: rest =>
    match f.parsed with
    | none => expandFileList pfx rest
    | some data => fileParams pfx f data :: expandFileList pfx rest

/-- `_expand_git_file_generator` (`appset.py` lines 207-263): entries
flagged `exclude` are dropped entirely; each remaining pattern's matches
are processed in sorted order.  `matchF` abstracts
`_find_matching_files` plus the per-file reads (external I/O). -/
def _expand_git_file_generator (entries : List DirEntry)
    (matchF : Str → List ResolvedFile) (pfx : Str) : List ParamSet :=
  (entries.filter (fun e => !e.exclude)).flatMap
    (fun e => expandFileList pfx (List.insertionSort fileLe (matchF e.path)))

/-- `_expand_list_generator` (`appset.py` lines 114-125): one flattened
parameter set per record element; non-record elements are skipped. -/
def _expand_list_generator (elements : List JValue) : List ParamSet :=
  elements.foldr
    (fun e acc =>
      match e with
      | .obj d => _flatten_dict d :: acc
      | _ => acc)
    []

/-- `_expand_clusters_generator` (`appset.py` lines 266-283): a fixed
single `in-cluster` entry. -/
def _expand_clusters_generator : List ParamSet :=
  [[("name".data, .str "in-cluster".data),
    ("server".data, .str "https://kubernetes.default.svc".data)]]

/-- `itertools.product(*child_params)` (`appset.py` line 305): tuples in
lexicographic order, the leftmost child varying slowest. -/
def cartProd {α : Type} : List (List α) → List (List α)
  | [] => [[]]
  | l :: ls => l.flatMap (fun x => (cartProd ls).map (x :: ·))

/-- The product-and-merge loop of `_expand_matrix_generator`
(`appset.py` lines 304-311): each tuple is merged left to right into an
initially empty dict, later children overwriting earlier keys. -/
def matrixCombine (childParams : List (List ParamSet)) : List ParamSet :=
  (cartProd childParams).map (fun combo => combo.foldl alistUpdate [])

/-- `_make_merge_key` (`appset.py` lines 351-353):
`"|".join(str(params.get(k, "")) for k in merge_keys)`. -/
def _make_merge_key (params : ParamSet) (mergeKeys : List Str) : Str :=
  List.intercalate ['|'] (mergeKeys.map (paramStrValue params))

/-- The seeding loop of `_expand_merge_generator` (`appset.py` lines
336-339): `result_map[key] = dict(params)` for the first child's
parameter sets — a later duplicate merge key replaces the earlier
entry's value in place. -/
def seedMergeMap (mergeKeys : List Str) (firstChild : List ParamSet) :
    List (Str × ParamSet) :=
  firstChild.foldl (fun m p => alistSet m (_make_merge_key p mergeKeys) p) []

/-- One step of the subsequent-children loop (`appset.py` lines
342-346): overlay onto an existing entry, or discard the parameter set
when its merge key is not already present. -/
def mergeStep (mergeKeys : List Str) (m : List (Str × ParamSet)) (p : ParamSet) :
    List (Str × ParamSet) :=
  let key := _make_merge_key p mergeKeys
  match alistGet m key with
  | some existing => alistSet m key (alistUpdate existing p)
  | none => m

/-- The subsequent-children loop of `_expand_merge_generator`
(`appset.py` lines 342-346). -/
def mergeInto (mergeKeys : List Str) (m : List (Str × ParamSet))
    (rest : List (List ParamSet)) : List (Str × ParamSet) :=
  rest.foldl (fun acc plist => plist.foldl (mergeStep mergeKeys) acc) m

/-- The seed-and-merge core of `_expand_merge_generator` (`appset.py`
lines 336-348), returning `list(result_map.values())`. -/
def mergeCombine (mergeKeys : List Str) (allExpanded : List (List ParamSet)) :
    List ParamSet :=
  (mergeInto mergeKeys (seedMergeMap mergeKeys (allExpanded.headD []))
    allExpanded.tail).map Prod.snd

-- A generator configuration, as dispatched by `_expand_generator`
-- (`appset.py` lines 64-111): a variant tagged by which of the
-- `list`/`git`/`clusters`/`matrix`/`merge` keys is present (git split
-- into its `directories` and `files` sub-forms, with the repository
-- resolution baked into the abstract match function), plus the
-- cross-cutting `values` and `selector` fields.  A `selector` of `none`
-- models an absent (or Python-falsy) selector.
mutual
inductive GenSpec where
  | listG (elements : List JValue)
  | gitDirs (entries : List DirEntry) (matchF : Str → List Str) (pfx : Str)
  | gitFiles (entries : List DirEntry) (matchF : Str → List ResolvedFile) (pfx : Str)
  | clusters
  | matrixG (children : List GeneratorConfig)
  | mergeG (mergeKeys : List Str) (children : List GeneratorConfig)
  | unsupported
inductive GeneratorConfig where
  | mk (variant : GenSpec) (extraValues : List (Str × JValue)) (selector : Option Selector)
end

/-- The `values` merge of `_expand_generator` (`appset.py` lines
102-105): write each extra value into the parameter set under the
`values.<key>` namespace. -/
def withValues (p : ParamSet) (extraValues : List (Str × JValue)) : ParamSet :=
  extraValues.foldl (fun acc kv => alistSet acc ("values.".data ++ kv.1) kv.2) p

/-- The extra-values stage of `_expand_generator` (`appset.py` lines
101-105); an empty `values` dict is Python-falsy and skipped (a no-op
either way). -/
def applyExtraValues (extraValues : List (Str × JValue)) (params : List ParamSet) :
    List ParamSet :=
  if extraValues = [] then params else params.map (fun p => withValues p extraValues)

-- `_expand_generator` (`appset.py` lines 64-111) and the two recursive
-- combinators `_expand_matrix_generator` (lines 286-311) and
-- `_expand_merge_generator` (lines 314-348), which expand each child
-- configuration back through the dispatcher.
mutual
def _expand_generator : GeneratorConfig → List ParamSet
  | .mk variant extraValues selector =>
    let params := expandVariant variant
    let params := applyExtraValues extraValues params
    match selector with
    | some sel => _apply_selector params sel
    | none => params
def expandVariant : GenSpec → List ParamSet
  | .listG elements => _expand_list_generator elements
  | .gitDirs entries matchF pfx => _expand_git_directory_generator entries matchF pfx
  | .gitFiles entries matchF pfx => _expand_git_file_generator entries matchF pfx
  | .clusters => _expand_clusters_generator
  | .matrixG children =>
    if children.length < 2 then [] else matrixCombine (expandChildren children)
  | .mergeG mergeKeys children =>
    if children.isEmpty then [] else mergeCombine mergeKeys (expandChildren children)
  | .unsupported => []
def expandChildren : List GeneratorConfig → List (List ParamSet)
  | [] => []
  | g :: gs => _expand_generator g :: expandChildren gs
end

/-- The accumulation loop of `expand_application_set` (`appset.py`
lines 37-40): expand every top-level generator and concatenate. -/
def allParamsOf (generators : List GeneratorConfig) : List ParamSet :=
  (generators.map _expand_generator).flatten

/-- The fixed outer envelope fields (`appset.py` lines 47-48 and
55-56). -/
def envelopeFields : List (Str × JValue) :=
  [("apiVersion".data, .str "argoproj.io/v1alpha1".data),
   ("kind".data, .str "Application".data)]

/-- The output-document assembly of `expand_application_set`
(`appset.py` lines 46-58) for one substituted template `appDict`:
build the four-key envelope (metadata defaulting to `{}`, spec
defaulting to the whole dict), but when the dict exposes neither
`metadata` nor `spec`, spread the whole dict under the envelope
instead (`{"apiVersion": ..., "kind": ..., **app_dict}`). -/
def wrapApplication (appDict : List (Str × JValue)) : List (Str × JValue) :=
  let fullDict := envelopeFields ++
    [("metadata".data, (alistGet appDict "metadata".data).getD (.obj [])),
     ("spec".data, (alistGet appDict "spec".data).getD (.obj appDict))]
  if !alistContains appDict "metadata".data && !alistContains appDict "spec".data then
    alistUpdate envelopeFields appDict
  else fullDict

/-- `expand_application_set` (`appset.py` lines 21-61): accumulate all
parameter sets, deep-substitute each into the template (a dict, so the
substitution is `substFields`), and assemble the output documents. -/
def expand_application_set (generators : List GeneratorConfig)
    (template : List (Str × JValue)) : List (List (Str × JValue)) :=
  (allParamsOf generators).map (fun params => wrapApplication (substFields params template))

/-- The key sequence of a dict (`m.keys()`). -/
def alistKeys {v : Type} (m : List (Str × v)) : List Str :=
  m.map Prod.fst

@[simp] theorem alistKeys_nil {v : Type} : alistKeys ([] : List (Str × v)) = [] := rfl

@[simp] theorem alistKeys_cons {v : Type} (k : Str) (x : v) (m : List (Str × v)) :
    alistKeys ((k, x) :: m) = k :: alistKeys m := rfl

theorem alistGet_set_self {v : Type} (m : List (Str × v)) (k : Str) (x : v) :
    alistGet (alistSet m k x) k = some x := by
  induction m with
  | nil => simp [alistSet, alistGet]
  | cons kv rest ih =>
    obtain ⟨k₀, v₀⟩ := kv
    by_cases h : k₀ = k <;> simp [alistSet, alistGet, h, ih]

theorem alistGet_set_ne {v : Type} (m : List (Str × v)) (k k₀ : Str) (x : v)
    (h : k₀ ≠ k) : alistGet (alistSet m k x) k₀ = alistGet m k₀ := by
  induction m with
  | nil => simp [alistSet, alistGet, Ne.symm h]
  | cons kv rest ih =>
    obtain ⟨k₁, v₁⟩ := kv
    by_cases h₁ : k₁ = k
    · subst h₁; simp [alistSet, alistGet, Ne.symm h]
    · by_cases h₂ : k₁ = k₀ <;> simp [alistSet, alistGet, h₁, h₂, ih, h]

theorem alistContains_iff_mem_keys {v : Type} (m : List (Str × v)) (k : Str) :
    alistContains m k = true ↔ k ∈ alistKeys m := by
  induction m with
  | nil => simp [alistContains, alistGet]
  | cons kv rest ih =>
    obtain ⟨k₀, v₀⟩ := kv
    unfold alistContains alistGet
    by_cases h : k₀ = k
    · subst h; simp
    · simpa [h, Ne.symm h, alistContains] using ih

theorem alistGet_eq_none_iff {v : Type} (m : List (Str × v)) (k : Str) :
    alistGet m k = none ↔ alistContains m k = false := by
  unfold alistContains
  cases alistGet m k <;> simp

theorem alistSet_keys {v : Type} (m : List (Str × v)) (k : Str) (x : v) :
    alistKeys (alistSet m k x) = setAdd (alistKeys m) k := by
  induction m with
  | nil => simp [alistSet, setAdd, alistKeys]
  | cons kv rest ih =>
    obtain ⟨k₀, v₀⟩ := kv
    by_cases h : k₀ = k
    · subst h; simp [alistSet, setAdd]
    · have hs : alistSet ((k₀, v₀) :: rest) k x = (k₀, v₀) :: alistSet rest k x := by
        simp [alistSet, h]
      rw [hs, alistKeys_cons, ih, setAdd, setAdd]
      by_cases hm : k ∈ alistKeys rest
      · simp [hm]
      · simp [hm, Ne.symm h]

theorem alistSet_keys_of_contains {v : Type} (m : List (Str × v)) (k : Str) (x : v)
    (h : alistContains m k = true) :
    alistKeys (alistSet m k x) = alistKeys m := by
  rw [alistSet_keys, setAdd, if_pos ((alistContains_iff_mem_keys m k).mp h)]

theorem alistSet_length_of_contains {v : Type} (m : List (Str × v)) (k : Str) (x : v)
    (h : alistContains m k = true) : (alistSet m k x).length = m.length := by
  have h₁ := congrArg List.length (alistSet_keys_of_contains m k x h)
  simpa [alistKeys] using h₁

theorem alistSet_length_le {v : Type} (m : List (Str × v)) (k : Str) (x : v) :
    (alistSet m k x).length ≤ m.length + 1 := by
  induction m with
  | nil => simp [alistSet]
  | cons kv rest ih =>
    obtain ⟨k₀, v₀⟩ := kv
    by_cases h : k₀ = k <;> simp [alistSet, h] <;> omega

theorem checkMatchLabels_iff (p : ParamSet) (mls : List (Str × JValue)) :
    checkMatchLabels p mls = true ↔
      ∀ kv ∈ mls, paramStrValue p kv.1 = pyStr kv.2 := by
  induction mls with
  | nil => simp [checkMatchLabels]
  | cons kv rest ih =>
    obtain ⟨k, x⟩ := kv
    by_cases h : paramStrValue p k = pyStr x <;> simp_all [checkMatchLabels]

/-- The per-expression satisfaction predicate of the `elif` chain in
`_matches_selector`. -/
def exprSatisfied (p : ParamSet) (e : MatchExpr) : Prop :=
  (e.operator = "In".data → paramStrValue p e.key ∈ e.values.map pyStr) ∧
  (e.operator = "NotIn".data → paramStrValue p e.key ∉ e.values.map pyStr) ∧
  (e.operator = "Exists".data → alistContains p e.key = true) ∧
  (e.operator = "DoesNotExist".data → alistContains p e.key = false)

theorem checkMatchExpressions_iff (p : ParamSet) (mes : List MatchExpr) :
    checkMatchExpressions p mes = true ↔ ∀ e ∈ mes, exprSatisfied p e := by
  induction mes with
  | nil => simp [checkMatchExpressions]
  | cons e rest ih =>
    simp only [checkMatchExpressions]
    by_cases hIn : e.operator = "In".data
    · by_cases hv : paramStrValue p e.key ∈ e.values.map pyStr <;>
        simp_all [exprSatisfied]
    · by_cases hNotIn : e.operator = "NotIn".data
      · by_cases hv : paramStrValue p e.key ∈ e.values.map pyStr <;>
          simp_all [exprSatisfied]
      · by_cases hEx : e.operator = "Exists".data
        · by_cases hc : alistContains p e.key <;>
            simp_all [exprSatisfied]
        · by_cases hDne : e.operator = "DoesNotExist".data
          · by_cases hc : alistContains p e.key <;>
              simp_all [exprSatisfied]
          · simp_all [exprSatisfied]

theorem checkMatchExpressions_append (p : ParamSet) (l₁ l₂ : List MatchExpr) :
    checkMatchExpressions p (l₁ ++ l₂) =
      (checkMatchExpressions p l₁ && checkMatchExpressions p l₂) := by
  induction l₁ with
  | nil => simp [checkMatchExpressions]
  | cons e rest ih =>
    simp only [List.cons_append, checkMatchExpressions]
    split_ifs <;> simp [ih]

/-- C4: a parameter set passes the selector iff every `matchLabels`
entry equals (string-compared, missing key reading as the empty string)
the parameter's value and every `matchExpressions` entry is satisfied
per its operator (`In` membership, `NotIn` its negation, `Exists`
key presence, `DoesNotExist` key absence); the filter keeps exactly the
passing parameter sets, and a configuration without a selector keeps
every parameter set. -/
theorem selector_filter_semantics (p : ParamSet) (mls : List (Str × JValue))
    (mes : List MatchExpr) (variant : GenSpec) (extraValues : List (Str × JValue))
    (ps : List ParamSet) (sel : Selector) :
    (_matches_selector p mls mes = true ↔
      ((∀ kv ∈ mls, paramStrValue p kv.1 = pyStr kv.2) ∧ ∀ e ∈ mes, exprSatisfied p e)) ∧
    (p ∈ _apply_selector ps sel ↔
      (p ∈ ps ∧ _matches_selector p sel.matchLabels sel.matchExpressions = true)) ∧
    (∀ k, alistContains p k = false → paramStrValue p k = []) ∧
    (_expand_generator (.mk variant extraValues none) =
      applyExtraValues extraValues (expandVariant variant)) := by
  refine ⟨?_, ?_, ?_, ?_⟩
  · unfold _matches_selector
    rw [Bool.and_eq_true, checkMatchLabels_iff, checkMatchExpressions_iff]
  · simp [_apply_selector, List.mem_filter]
  · intro k h
    simp [paramStrValue, (alistGet_eq_none_iff p k).mpr h]
  · simp [_expand_generator]

/-- C4 witness: the theorem applied at a concrete parameter set,
selector and generator configuration. -/
theorem selector_filter_semantics_witness :
    (_matches_selector [("env".data, .str "prod".data)]
        [("env".data, .str "prod".data)]
        [⟨"env".data, "Exists".data, []⟩] = true ↔
      ((∀ kv ∈ [(("env".data : Str), JValue.str "prod".data)],
          paramStrValue [("env".data, .str "prod".data)] kv.1 = pyStr kv.2) ∧
        ∀ e ∈ [(⟨"env".data, "Exists".data, []⟩ : MatchExpr)],
          exprSatisfied [("env".data, .str "prod".data)] e)) ∧
    ([("env".data, JValue.str "prod".data)] ∈
        _apply_selector [[("env".data, .str "prod".data)]] ⟨[], []⟩ ↔
      ([("env".data, JValue.str "prod".data)] ∈ [[("env".data, .str "prod".data)]] ∧
        _matches_selector [("env".data, .str "prod".data)] [] [] = true)) ∧
    (∀ k, alistContains [(("env".data : Str), JValue.str "prod".data)] k = false →
      paramStrValue [("env".data, .str "prod".data)] k = []) ∧
    (_expand_generator (.mk .clusters [] none) =
      applyExtraValues [] (expandVariant .clusters)) :=
  selector_filter_semantics [("env".data, .str "prod".data)]
    [("env".data, .str "prod".data)] [⟨"env".data, "Exists".data, []⟩]
    .clusters [] [[("env".data, .str "prod".data)]] ⟨[], []⟩

/-- C10: a `matchExpressions` entry whose operator is none of `In`,
`NotIn`, `Exists`, `DoesNotExist` imposes no constraint: deleting it
from the expression list does not change the selector verdict on any
parameter set. -/
theorem unknown_operator_no_constraint (p : ParamSet) (mls : List (Str × JValue))
    (pre post : List MatchExpr) (e : MatchExpr)
    (h₁ : e.operator ≠ "In".data) (h₂ : e.operator ≠ "NotIn".data)
    (h₃ : e.operator ≠ "Exists".data) (h₄ : e.operator ≠ "DoesNotExist".data) :
    _matches_selector p mls (pre ++ e :: post) = _matches_selector p mls (pre ++ post) := by
  unfold _matches_selector
  rw [checkMatchExpressions_append, checkMatchExpressions_append]
  have he : checkMatchExpressions p (e :: post) = checkMatchExpressions p post := by
    simp [checkMatchExpressions, h₁, h₂, h₃, h₄]
  rw [he]

/-- C10 witness: a concrete unknown operator `Gt` is ignored. -/
theorem unknown_operator_no_constraint_witness :
    _matches_selector [] [] ([] ++ ⟨"k".data, "Gt".data, []⟩ :: []) =
      _matches_selector [] [] ([] ++ []) :=
  unknown_operator_no_constraint [] [] [] [] ⟨"k".data, "Gt".data, []⟩
    (by decide) (by decide) (by decide) (by decide)

theorem applyExtraValues_nil (extraValues : List (Str × JValue)) :
    applyExtraValues extraValues [] = [] := by
  unfold applyExtraValues
  split <;> simp

theorem expand_generator_empty_of_variant_empty (variant : GenSpec)
    (extraValues : List (Str × JValue)) (selector : Option Selector)
    (h : expandVariant variant = []) :
    _expand_generator (.mk variant extraValues selector) = [] := by
  simp only [_expand_generator, h, applyExtraValues_nil]
  cases selector <;> simp [_apply_selector]

/-- C6: the soft-fail inputs contribute nothing and abort nothing: an
unsupported generator variant expands to `[]`, a matrix generator with
fewer than 2 children expands to `[]`, a file whose document failed to
parse as a record is skipped while the remaining files are still
processed, and a generator with an empty expansion leaves the
concatenated expansion of all other generators intact. -/
theorem soft_fail_empty_contribution :
    (∀ (extraValues : List (Str × JValue)) (selector : Option Selector),
      _expand_generator (.mk .unsupported extraValues selector) = []) ∧
    (∀ (children : List GeneratorConfig) (extraValues : List (Str × JValue))
        (selector : Option Selector), children.length < 2 →
      _expand_generator (.mk (.matrixG children) extraValues selector) = []) ∧
    (∀ (pfx : Str) (f : ResolvedFile) (rest₁ rest₂ : List ResolvedFile),
      f.parsed = none →
      expandFileList pfx (rest₁ ++ f :: rest₂) = expandFileList pfx (rest₁ ++ rest₂)) ∧
    (∀ (gens₁ gens₂ : List GeneratorConfig) (g : GeneratorConfig),
      _expand_generator g = [] →
      allParamsOf (gens₁ ++ g :: gens₂) = allParamsOf (gens₁ ++ gens₂)) := by
  refine ⟨?_, ?_, ?_, ?_⟩
  · intro extraValues selector
    exact expand_generator_empty_of_variant_empty _ _ _ (by simp [expandVariant])
  · intro children extraValues selector h
    exact expand_generator_empty_of_variant_empty _ _ _ (by simp [expandVariant, h])
  · intro pfx f rest₁ rest₂ hf
    induction rest₁ with
    | nil => simp [expandFileList, hf]
    | cons g rest ih =>
      cases hg : g.parsed <;> simp [expandFileList, hg, ih]
  · intro gens₁ gens₂ g hg
    simp [allParamsOf, hg]

/-- C6 witness: the theorem applied at concrete soft-fail inputs. -/
theorem soft_fail_empty_contribution_witness :
    (_expand_generator (.mk .unsupported [] none) = []) ∧
    (_expand_generator (.mk (.matrixG [.mk .clusters [] none]) [] none) = []) ∧
    (expandFileList [] ([] ++ ⟨"a.yaml".data, none⟩ :: []) =
      expandFileList [] ([] ++ [])) ∧
    (allParamsOf ([] ++ .mk .unsupported [] none :: []) = allParamsOf ([] ++ [])) :=
  ⟨soft_fail_empty_contribution.1 [] none,
   soft_fail_empty_contribution.2.1 [.mk .clusters [] none] [] none (by decide),
   soft_fail_empty_contribution.2.2.1 [] ⟨"a.yaml".data, none⟩ [] [] rfl,
   soft_fail_empty_contribution.2.2.2 [] [] (.mk .unsupported [] none)
     (soft_fail_empty_contribution.1 [] none)⟩

/-- C3 counterexample: for the substituted template
`{"metadata": {}}` — which exposes a metadata-like field but no
spec-like field, so it does *not* expose both — the claim predicts the
whole template is wrapped under the envelope directly, but the code
takes the four-key branch and emits a `spec` field holding the whole
template. -/
theorem wrap_both_fields_counterexample :
    alistContains [(("metadata".data : Str), JValue.obj [])] "spec".data = false ∧
    wrapApplication [("metadata".data, JValue.obj [])] ≠
      alistUpdate envelopeFields [("metadata".data, JValue.obj [])] ∧
    alistGet (wrapApplication [("metadata".data, JValue.obj [])]) "spec".data =
      some (JValue.obj [("metadata".data, JValue.obj [])]) := by
  refine ⟨rfl, ?_, rfl⟩
  intro h
  have h₁ := congrArg (fun l => alistContains l "spec".data) h
  exact absurd h₁ (by decide)

/-- C3 (amended): the pass-through branch applies exactly when the
substituted template exposes *neither* a metadata-like nor a spec-like
top-level field — then the whole template is spread under the envelope;
as soon as at least one of the two is exposed, the envelope is built
with the metadata field (defaulting to an empty map) and the spec field
(defaulting to the whole substituted template), and the orchestrator
assembles one such document per accumulated parameter set. -/
theorem wrap_envelope_assembly :
    (∀ appDict : List (Str × JValue),
      alistContains appDict "metadata".data = false →
      alistContains appDict "spec".data = false →
      wrapApplication appDict = alistUpdate envelopeFields appDict) ∧
    (∀ appDict : List (Str × JValue),
      (alistContains appDict "metadata".data = true ∨
        alistContains appDict "spec".data = true) →
      wrapApplication appDict = envelopeFields ++
        [("metadata".data, (alistGet appDict "metadata".data).getD (.obj [])),
         ("spec".data, (alistGet appDict "spec".data).getD (.obj appDict))]) ∧
    (∀ (generators : List GeneratorConfig) (template : List (Str × JValue)),
      expand_application_set generators template =
        (allParamsOf generators).map
          (fun params => wrapApplication (substFields params template))) := by
  refine ⟨?_, ?_, fun _ _ => rfl⟩
  · intro appDict h₁ h₂
    simp [wrapApplication, h₁, h₂]
  · intro appDict h
    rcases h with h | h <;> simp [wrapApplication, h]

/-- C3 witness: both branches of the amended assembly at concrete
substituted templates. -/
theorem wrap_envelope_assembly_witness :
    (wrapApplication [(("foo".data : Str), JValue.num 1)] =
      alistUpdate envelopeFields [("foo".data, JValue.num 1)]) ∧
    (wrapApplication [(("metadata".data : Str), JValue.obj [])] =
      envelopeFields ++
        [("metadata".data,
          (alistGet [(("metadata".data : Str), JValue.obj [])] "metadata".data).getD (.obj [])),
         ("spec".data,
          (alistGet [(("metadata".data : Str), JValue.obj [])] "spec".data).getD
            (.obj [("metadata".data, JValue.obj [])]))]) :=
  ⟨wrap_envelope_assembly.1 [("foo".data, JValue.num 1)] rfl rfl,
   wrap_envelope_assembly.2.1 [("metadata".data, JValue.obj [])] (Or.inl rfl)⟩

theorem setAdd_mem (s : List Str) (x y : Str) :
    y ∈ setAdd s x ↔ y ∈ s ∨ y = x := by
  unfold setAdd
  split <;> rename_i h
  · constructor
    · exact Or.inl
    · rintro (hy | rfl)
      · exact hy
      · exact h
  · simp

theorem setAdd_nodup (s : List Str) (x : Str) (h : s.Nodup) :
    (setAdd s x).Nodup := by
  unfold setAdd
  split <;> rename_i hx
  · exact h
  · simpa [List.nodup_append] using ⟨h, hx⟩

theorem foldl_setAdd_mem (xs : List Str) (s : List Str) (y : Str) :
    y ∈ xs.foldl setAdd s ↔ y ∈ s ∨ y ∈ xs := by
  induction xs generalizing s with
  | nil => simp
  | cons x rest ih =>
    rw [List.foldl_cons, ih, setAdd_mem]
    simp [List.mem_cons, or_assoc]

theorem foldl_setAdd_nodup (xs : List Str) (s : List Str) (h : s.Nodup) :
    (xs.foldl setAdd s).Nodup := by
  induction xs generalizing s with
  | nil => exact h
  | cons x rest ih => exact ih _ (setAdd_nodup s x h)

theorem setAdd_length_le (s : List Str) (x : Str) :
    (setAdd s x).length ≤ s.length + 1 := by
  unfold setAdd
  split <;> simp

theorem foldl_setAdd_length_le (xs : List Str) (s : List Str) :
    (xs.foldl setAdd s).length ≤ s.length + xs.length := by
  induction xs generalizing s with
  | nil => simp
  | cons x rest ih =>
    calc (rest.foldl setAdd (setAdd s x)).length
        ≤ (setAdd s x).length + rest.length := ih _
      _ ≤ s.length + 1 + rest.length := by
          have := setAdd_length_le s x
          omega
      _ = s.length + (x :: rest).length := by simp; omega

theorem foldl_setAdd_length_eq_dedup (xs : List Str) :
    (xs.foldl setAdd []).length = xs.dedup.length := by
  have hperm : (xs.foldl setAdd []).Perm xs.dedup := by
    rw [List.perm_ext_iff_of_nodup (foldl_setAdd_nodup xs [] List.nodup_nil)
      (List.nodup_dedup xs)]
    intro a
    rw [foldl_setAdd_mem, List.mem_dedup]
    simp
  exact hperm.length_eq

theorem seedFold_keys (mergeKeys : List Str) (l : List ParamSet)
    (m : List (Str × ParamSet)) :
    alistKeys (l.foldl (fun acc p => alistSet acc (_make_merge_key p mergeKeys) p) m) =
      (l.map (fun p => _make_merge_key p mergeKeys)).foldl setAdd (alistKeys m) := by
  induction l generalizing m with
  | nil => simp
  | cons p rest ih =>
    rw [List.foldl_cons, ih, List.map_cons, List.foldl_cons, alistSet_keys]

theorem seedMergeMap_keys (mergeKeys : List Str) (l : List ParamSet) :
    alistKeys (seedMergeMap mergeKeys l) =
      (l.map (fun p => _make_merge_key p mergeKeys)).foldl setAdd [] :=
  seedFold_keys mergeKeys l []

theorem seedMergeMap_length_eq_dedup (mergeKeys : List Str) (l : List ParamSet) :
    (seedMergeMap mergeKeys l).length =
      ((l.map (fun p => _make_merge_key p mergeKeys)).dedup).length := by
  have h₁ : (seedMergeMap mergeKeys l).length =
      (alistKeys (seedMergeMap mergeKeys l)).length := by
    simp [alistKeys]
  rw [h₁, seedMergeMap_keys, foldl_setAdd_length_eq_dedup]

theorem seedMergeMap_length_le (mergeKeys : List Str) (l : List ParamSet) :
    (seedMergeMap mergeKeys l).length ≤ l.length := by
  have h₁ : (seedMergeMap mergeKeys l).length =
      (alistKeys (seedMergeMap mergeKeys l)).length := by
    simp [alistKeys]
  rw [h₁, seedMergeMap_keys]
  have := foldl_setAdd_length_le (l.map (fun p => _make_merge_key p mergeKeys)) []
  simpa using this

theorem seedFold_get (mergeKeys : List Str) (l : List ParamSet)
    (m : List (Str × ParamSet)) (k : Str) :
    alistGet (l.foldl (fun acc p => alistSet acc (_make_merge_key p mergeKeys) p) m) k =
      (l.reverse.find? (fun p => decide (_make_merge_key p mergeKeys = k))).or
        (alistGet m k) := by
  induction l generalizing m with
  | nil => simp
  | cons p rest ih =>
    rw [List.foldl_cons, ih, List.reverse_cons, List.find?_append]
    by_cases h : _make_merge_key p mergeKeys = k
    · subst h
      rw [alistGet_set_self]
      simp [Option.or_assoc, List.find?]
    · rw [alistGet_set_ne _ _ _ _ (Ne.symm h)]
      simp [List.find?, h]

theorem mergeStep_keys (mergeKeys : List Str) (m : List (Str × ParamSet))
    (p : ParamSet) : alistKeys (mergeStep mergeKeys m p) = alistKeys m := by
  cases hg : alistGet m (_make_merge_key p mergeKeys) with
  | none => simp [mergeStep, hg]
  | some existing =>
    simp only [mergeStep, hg]
    exact alistSet_keys_of_contains m (_make_merge_key p mergeKeys)
      (alistUpdate existing p) (by simp [alistContains, hg])

theorem mergeInto_keys (mergeKeys : List Str) (m : List (Str × ParamSet))
    (rest : List (List ParamSet)) :
    alistKeys (mergeInto mergeKeys m rest) = alistKeys m := by
  induction rest generalizing m with
  | nil => rfl
  | cons plist rest' ih =>
    rw [mergeInto, List.foldl_cons]
    have hp : ∀ (m₀ : List (Str × ParamSet)),
        alistKeys (plist.foldl (mergeStep mergeKeys) m₀) = alistKeys m₀ := by
      intro m₀
      induction plist generalizing m₀ with
      | nil => rfl
      | cons q qs ihq => rw [List.foldl_cons, ihq, mergeStep_keys]
    rw [← mergeInto]
    rw [ih, hp]

theorem mergeInto_length (mergeKeys : List Str) (m : List (Str × ParamSet))
    (rest : List (List ParamSet)) :
    (mergeInto mergeKeys m rest).length = m.length := by
  have h := congrArg List.length (mergeInto_keys mergeKeys m rest)
  simpa [alistKeys] using h

/-- C2: the merge generator seeds its result mapping from the first
child's parameter sets keyed by `_make_merge_key` (the `"|"`-joined
string values of the merge-key fields, absent fields reading as the
empty string); a later child's parameter set overlays an existing entry
when its merge key is present and is discarded when it is not, so the
output size never exceeds the first child's output size. -/
theorem merge_generator_semantics (mergeKeys : List Str)
    (children : List GeneratorConfig) :
    (expandVariant (.mergeG mergeKeys children)).length ≤
      ((expandChildren children).headD []).length ∧
    (children.isEmpty = false →
      expandVariant (.mergeG mergeKeys children) =
        (mergeInto mergeKeys
          (seedMergeMap mergeKeys ((expandChildren children).headD []))
          (expandChildren children).tail).map Prod.snd) ∧
    (∀ p, _make_merge_key p mergeKeys =
      List.intercalate ['|'] (mergeKeys.map (paramStrValue p))) ∧
    (∀ (m : List (Str × ParamSet)) (p : ParamSet),
      alistContains m (_make_merge_key p mergeKeys) = false →
      mergeStep mergeKeys m p = m) ∧
    (∀ (m : List (Str × ParamSet)) (p existing : ParamSet),
      alistGet m (_make_merge_key p mergeKeys) = some existing →
      mergeStep mergeKeys m p =
        alistSet m (_make_merge_key p mergeKeys) (alistUpdate existing p)) := by
  refine ⟨?_, ?_, fun _ => rfl, ?_, ?_⟩
  · cases children with
    | nil => simp [expandVariant]
    | cons g gs =>
      simp only [expandVariant, List.isEmpty_cons, Bool.false_eq_true, if_false,
        mergeCombine, List.length_map]
      rw [mergeInto_length]
      exact seedMergeMap_length_le mergeKeys _
  · intro h
    cases children with
    | nil => simp at h
    | cons g gs => simp [expandVariant, mergeCombine]
  · intro m p h
    simp [mergeStep, (alistGet_eq_none_iff m _).mpr h]
  · intro m p existing h
    simp [mergeStep, h]

/-- A first merge child for the witnesses: a list generator with two
distinct `name` values. -/
def mergeChildOne : GeneratorConfig :=
  .mk (.listG [.obj [("name".data, .str "app1".data), ("replicas".data, .num 1)],
               .obj [("name".data, .str "app2".data), ("replicas".data, .num 2)]]) [] none

/-- A second merge child for the witnesses: overlays `env` onto
`app1`. -/
def mergeChildTwo : GeneratorConfig :=
  .mk (.listG [.obj [("name".data, .str "app1".data), ("env".data, .str "prod".data)]]) [] none

/-- C2 witness: the theorem applied at a concrete merge generator, with
the discard and overlay hypotheses discharged at concrete mappings. -/
theorem merge_generator_semantics_witness :
    ((expandVariant (.mergeG ["name".data] [mergeChildOne, mergeChildTwo])).length ≤
      ((expandChildren [mergeChildOne, mergeChildTwo]).headD []).length) ∧
    (expandVariant (.mergeG ["name".data] [mergeChildOne, mergeChildTwo]) =
      (mergeInto ["name".data]
        (seedMergeMap ["name".data]
          ((expandChildren [mergeChildOne, mergeChildTwo]).headD []))
        (expandChildren [mergeChildOne, mergeChildTwo]).tail).map Prod.snd) ∧
    (mergeStep ["name".data] [] [("name".data, .str "app1".data)] = []) ∧
    (mergeStep ["name".data] [("app1".data, [])] [("name".data, .str "app1".data)] =
      alistSet [("app1".data, [])]
        (_make_merge_key [("name".data, .str "app1".data)] ["name".data])
        (alistUpdate [] [("name".data, .str "app1".data)])) :=
  ⟨(merge_generator_semantics ["name".data] [mergeChildOne, mergeChildTwo]).1,
   (merge_generator_semantics ["name".data] [mergeChildOne, mergeChildTwo]).2.1 rfl,
   (merge_generator_semantics ["name".data] [mergeChildOne, mergeChildTwo]).2.2.2.1
     [] [("name".data, .str "app1".data)] rfl,
   (merge_generator_semantics ["name".data] [mergeChildOne, mergeChildTwo]).2.2.2.2
     [("app1".data, [])] [("name".data, .str "app1".data)] [] rfl⟩

/-- C9: when the first child of a merge generator produces several
parameter sets with the same merge key, the later one replaces the
earlier one in the seeded mapping (a lookup returns the last matching
parameter set), so the output holds exactly one entry per distinct
merge key of the first child — and can therefore be strictly smaller
than the first child's output. -/
theorem merge_seed_last_duplicate_wins (mergeKeys : List Str)
    (children : List GeneratorConfig) (l : List ParamSet) (k : Str) :
    (alistGet (seedMergeMap mergeKeys l) k =
      l.reverse.find? (fun p => decide (_make_merge_key p mergeKeys = k))) ∧
    ((expandVariant (.mergeG mergeKeys children)).length =
      ((((expandChildren children).headD []).map
        (fun p => _make_merge_key p mergeKeys)).dedup).length) := by
  constructor
  · have h := seedFold_get mergeKeys l [] k
    simpa [alistGet] using h
  · cases children with
    | nil => simp [expandVariant, expandChildren]
    | cons g gs =>
      simp only [expandVariant, List.isEmpty_cons, Bool.false_eq_true, if_false,
        mergeCombine, List.length_map]
      rw [mergeInto_length, seedMergeMap_length_eq_dedup]

/-- A merge child whose first expansion repeats the merge key `a`. -/
def mergeChildDup : GeneratorConfig :=
  .mk (.listG [.obj [("name".data, .str "a".data), ("v".data, .num 1)],
               .obj [("name".data, .str "a".data), ("v".data, .num 2)],
               .obj [("name".data, .str "b".data)]]) [] none

/-- C9 witness: the theorem applied at a first child that repeats merge
key `a`; the seeded mapping keeps the later `a` entry, holds one entry
per distinct key, and is strictly smaller than the first child. -/
theorem merge_seed_last_duplicate_wins_witness :
    (alistGet (seedMergeMap ["name".data]
        [[("name".data, .str "a".data), ("v".data, .num 1)],
         [("name".data, .str "a".data), ("v".data, .num 2)],
         [("name".data, .str "b".data)]]) "a".data =
      [[("name".data, JValue.str "a".data), ("v".data, JValue.num 1)],
       [("name".data, JValue.str "a".data), ("v".data, JValue.num 2)],
       [("name".data, JValue.str "b".data)]].reverse.find?
        (fun p => decide (_make_merge_key p ["name".data] = "a".data))) ∧
    (seedMergeMap ["name".data]
        [[("name".data, .str "a".data), ("v".data, .num 1)],
         [("name".data, .str "a".data), ("v".data, .num 2)],
         [("name".data, .str "b".data)]]).length = 2 ∧
    (2 : Nat) < 3 :=
  ⟨(merge_seed_last_duplicate_wins ["name".data] [mergeChildDup, mergeChildTwo]
      [[("name".data, .str "a".data), ("v".data, .num 1)],
       [("name".data, .str "a".data), ("v".data, .num 2)],
       [("name".data, .str "b".data)]] "a".data).1,
   rfl, by decide⟩

theorem sum_map_const {α : Type} (l : List α) (c : ℕ) :
    (l.map (fun _ => c)).sum = l.length * c := by
  induction l with
  | nil => simp
  | cons x rest ih => simp [ih, Nat.succ_mul, Nat.add_comm]

theorem cartProd_length {α : Type} (ls : List (List α)) :
    (cartProd ls).length = (ls.map List.length).prod := by
  induction ls with
  | nil => simp [cartProd]
  | cons l rest ih =>
    simp only [cartProd, List.length_flatMap, List.map_map, List.map_cons,
      List.prod_cons]
    have : (fun x => ((cartProd rest).map (x :: ·)).length) ∘ id =
        fun _ : α => (cartProd rest).length := by
      funext x; simp
    simp only [Function.comp_def, List.length_map]
    rw [sum_map_const, ih]

theorem cartProd_mem_length {α : Type} (ls : List (List α)) (combo : List α)
    (h : combo ∈ cartProd ls) : combo.length = ls.length := by
  induction ls generalizing combo with
  | nil => simp [cartProd] at h; simp [h]
  | cons l rest ih =>
    simp only [cartProd, List.mem_flatMap, List.mem_map] at h
    obtain ⟨x, _, c', hc', rfl⟩ := h
    simp [ih c' hc']

theorem count_map_ite {α : Type} [DecidableEq α] (l : List α) (c : α) (n : ℕ) :
    (l.map (fun x => if x = c then n else 0)).sum = l.count c * n := by
  induction l with
  | nil => simp
  | cons x rest ih =>
    by_cases h : x = c
    · subst h
      simp [ih, List.count_cons_self, Nat.succ_mul, Nat.add_comm]
    · simp [h, ih, List.count_cons_of_ne (Ne.symm h)]

theorem count_map_cons {α : Type} [DecidableEq α] (L : List (List α)) (x c : α)
    (cs : List α) :
    (L.map (x :: ·)).count (c :: cs) = if x = c then L.count cs else 0 := by
  by_cases h : x = c
  · subst h
    rw [if_pos rfl]
    induction L with
    | nil => simp
    | cons l L' ih =>
      simp only [List.map_cons, List.count_cons, ih]
      by_cases hl : cs = l
      · subst hl; simp
      · simp [hl, Ne.symm hl, List.cons.injEq]
  · rw [if_neg h, List.count_eq_zero]
    intro hm
    obtain ⟨c', _, he⟩ := List.mem_map.mp hm
    exact h ((List.cons.injEq _ _ _ _).mp he).1

theorem cartProd_count {α : Type} [DecidableEq α] (ls : List (List α))
    (combo : List α) (h : combo.length = ls.length) :
    (cartProd ls).count combo =
      ((ls.zip combo).map (fun pr => pr.1.count pr.2)).prod := by
  induction ls generalizing combo with
  | nil =>
    rw [List.length_nil, List.length_eq_zero] at h
    subst h
    simp [cartProd]
  | cons l rest ih =>
    cases combo with
    | nil => simp at h
    | cons c cs =>
      simp only [List.length_cons, Nat.add_right_cancel_iff] at h
      have hflat : cartProd (l :: rest) = (l.map (fun x => (cartProd rest).map (x :: ·))).flatten := by
        simp [cartProd, List.flatMap_def]
      rw [hflat, List.count_flatten, List.map_map]
      have : (List.count (c :: cs) ∘ fun x => (cartProd rest).map (x :: ·)) =
          fun x => if x = c then (cartProd rest).count cs else 0 := by
        funext x
        simp only [Function.comp_apply]
        exact count_map_cons (cartProd rest) x c cs
      rw [this, count_map_ite, ih cs h]
      simp [List.zip_cons_cons]

theorem alistGet_not_mem_keys {v : Type} (m : List (Str × v)) (k : Str)
    (h : k ∉ alistKeys m) : alistGet m k = none := by
  rw [alistGet_eq_none_iff]
  cases hc : alistContains m k
  · rfl
  · exact absurd ((alistContains_iff_mem_keys m k).mp hc) h

theorem alistGet_update_of_nodup {v : Type} (m o : List (Str × v)) (k : Str)
    (h : (alistKeys o).Nodup) :
    alistGet (alistUpdate m o) k = (alistGet o k).or (alistGet m k) := by
  induction o generalizing m with
  | nil => simp [alistUpdate, alistGet]
  | cons kv os ih =>
    obtain ⟨k₀, v₀⟩ := kv
    rw [alistKeys_cons, List.nodup_cons] at h
    have hstep : alistUpdate m ((k₀, v₀) :: os) = alistUpdate (alistSet m k₀ v₀) os := by
      simp [alistUpdate]
    rw [hstep, ih _ h.2]
    by_cases hk : k₀ = k
    · subst hk
      rw [alistGet_not_mem_keys os k₀ h.1, alistGet_set_self]
      simp [alistGet]
    · rw [alistGet_set_ne _ _ _ _ (Ne.symm hk)]
      simp [alistGet, hk]

theorem matrix_merge_get_general (combo : List ParamSet) (m : ParamSet) (k : Str)
    (h : ∀ p ∈ combo, (alistKeys p).Nodup) :
    alistGet (combo.foldl alistUpdate m) k =
      (combo.reverse.findSome? (fun p => alistGet p k)).or (alistGet m k) := by
  induction combo generalizing m with
  | nil => simp
  | cons p rest ih =>
    rw [List.foldl_cons, ih _ (fun q hq => h q (List.mem_cons_of_mem p hq)),
      List.reverse_cons, List.findSome?_append,
      alistGet_update_of_nodup m p k (h p (List.mem_cons_self p rest))]
    cases hg : alistGet p k <;> simp [List.findSome?, hg, Option.or_assoc]

/-- C1: a matrix generator with at least two children is exactly the
cartesian product of the children's expansions, each tuple merged left
to right into one parameter set; the output size is the product of the
children's result counts, every member of the product has one entry per
child, each combination appears exactly as often as its components do
(hence exactly once when the children are duplicate-free), and on a key
collision the rightmost (later) child holding the key wins. -/
theorem matrix_generator_cartesian (children : List GeneratorConfig)
    (h : 2 ≤ children.length) :
    expandVariant (.matrixG children) =
      (cartProd (expandChildren children)).map (fun combo => combo.foldl alistUpdate []) ∧
    (expandVariant (.matrixG children)).length =
      ((expandChildren children).map List.length).prod ∧
    (∀ combo ∈ cartProd (expandChildren children),
      combo.length = (expandChildren children).length) ∧
    (∀ combo : List ParamSet, combo.length = (expandChildren children).length →
      (cartProd (expandChildren children)).count combo =
        (((expandChildren children).zip combo).map (fun pr => pr.1.count pr.2)).prod) ∧
    (∀ (combo : List ParamSet) (k : Str), (∀ p ∈ combo, (alistKeys p).Nodup) →
      alistGet (combo.foldl alistUpdate []) k =
        combo.reverse.findSome? (fun p => alistGet p k)) := by
  have hvar : expandVariant (.matrixG children) =
      (cartProd (expandChildren children)).map (fun combo => combo.foldl alistUpdate []) := by
    simp [expandVariant, matrixCombine, Nat.not_lt.mpr h]
  refine ⟨hvar, ?_, ?_, ?_, ?_⟩
  · rw [hvar, List.length_map, cartProd_length]
  · exact cartProd_mem_length (expandChildren children)
  · exact cartProd_count (expandChildren children)
  · intro combo k hc
    have := matrix_merge_get_general combo [] k hc
    simpa [alistGet] using this

/-- Matrix witness children: two list generators of two elements
each. -/
def matrixChildX : GeneratorConfig :=
  .mk (.listG [.obj [("x".data, .str "1".data)], .obj [("x".data, .str "2".data)]]) [] none

/-- Matrix witness children: the second axis. -/
def matrixChildY : GeneratorConfig :=
  .mk (.listG [.obj [("y".data, .str "a".data)], .obj [("y".data, .str "b".data)]]) [] none

/-- C1 witness: the theorem applied to a concrete 2×2 matrix generator,
with the per-conjunct hypotheses discharged at concrete tuples. -/
theorem matrix_generator_cartesian_witness :
    (expandVariant (.matrixG [matrixChildX, matrixChildY]) =
      (cartProd (expandChildren [matrixChildX, matrixChildY])).map
        (fun combo => combo.foldl alistUpdate [])) ∧
    ((expandVariant (.matrixG [matrixChildX, matrixChildY])).length =
      ((expandChildren [matrixChildX, matrixChildY]).map List.length).prod) ∧
    (alistGet
        ([[(("x".data : Str), JValue.str "1".data)],
          [(("x".data : Str), JValue.str "2".data)]].foldl alistUpdate [])
        "x".data =
      [[(("x".data : Str), JValue.str "1".data)],
       [(("x".data : Str), JValue.str "2".data)]].reverse.findSome?
        (fun p => alistGet p "x".data)) :=
  ⟨(matrix_generator_cartesian [matrixChildX, matrixChildY] (by decide)).1,
   (matrix_generator_cartesian [matrixChildX, matrixChildY] (by decide)).2.1,
   (matrix_generator_cartesian [matrixChildX, matrixChildY] (by decide)).2.2.2.2
     [[("x".data, .str "1".data)], [("x".data, .str "2".data)]] "x".data
     (fun p hp => by
       rcases List.mem_cons.mp hp with rfl | hp₂
       · decide
       · rcases List.mem_cons.mp hp₂ with rfl | hp₃
         · decide
         · simp at hp₃)⟩

theorem replaceAll_of_not_infix (pat rep : Str) :
    ∀ s, ¬ pat <:+: s → replaceAll pat rep s = s := by
  have key : ∀ (n : ℕ) (s : Str), s.length ≤ n → ¬ pat <:+: s →
      replaceAll pat rep s = s := by
    intro n
    induction n with
    | zero =>
      intro s hs _
      rw [Nat.le_zero, List.length_eq_zero] at hs
      subst hs
      simp [replaceAll]
    | succ n ih =>
      intro s hs h
      cases s with
      | nil => simp [replaceAll]
      | cons c rest =>
        have hcond : ¬(pat ≠ [] ∧ pat.isPrefixOf (c :: rest) = true) := by
          rintro ⟨-, hpre⟩
          exact h (List.isPrefixOf_iff_prefix.mp hpre).isInfix
        rw [replaceAll, dif_neg hcond]
        have hrest : ¬ pat <:+: rest := fun hi => h (List.infix_cons hi)
        have hlen : rest.length ≤ n := by
          simpa using Nat.le_of_succ_le_succ (by simpa using hs)
        rw [ih rest hlen hrest]
  exact fun s => key s.length s le_rfl

theorem replaceAll_head_occurrence (pat rep s : Str) (h₁ : pat ≠ [])
    (h₂ : pat.isPrefixOf s = true) :
    replaceAll pat rep s = rep ++ replaceAll pat rep (s.drop pat.length) := by
  cases s with
  | nil =>
    cases pat with
    | nil => exact absurd rfl h₁
    | cons p ps => simp [List.isPrefixOf] at h₂
  | cons c rest => rw [replaceAll, dif_pos ⟨h₁, h₂⟩]

theorem foldl_replace_of_no_tokens (params : ParamSet) (text : Str) (ks : List Str)
    (h : ∀ k ∈ ks, ¬ placeholderToken k <:+: text) :
    ks.foldl
      (fun result key =>
        replaceAll (placeholderToken key) (pyStr ((alistGet params key).getD .null)) result)
      text = text := by
  induction ks with
  | nil => rfl
  | cons k rest ih =>
    rw [List.foldl_cons,
      replaceAll_of_not_infix _ _ text (h k (List.mem_cons_self k rest)),
      ih (fun k' hk' => h k' (List.mem_cons_of_mem k hk'))]

theorem substFields_eq_map (params : ParamSet) (fields : List (Str × JValue)) :
    substFields params fields =
      fields.map (fun kv => (kv.1, substitute_params_deep params kv.2)) := by
  induction fields with
  | nil => rfl
  | cons kv rest ih =>
    obtain ⟨k, x⟩ := kv
    rw [substFields, ih, List.map_cons]

theorem substItems_eq_map (params : ParamSet) (items : List JValue) :
    substItems params items = items.map (substitute_params_deep params) := by
  induction items with
  | nil => rfl
  | cons x rest ih => rw [substItems, ih, List.map_cons]

/-- C5: the template substitutor is a structure-preserving total
rewrite: strings get `substitute_params`, dict fields and list elements
are recursed into keeping keys and arity, all other scalars pass
through unchanged; the keys are processed longest first (the processing
order is a length-sorted permutation of the parameter keys, ties
keeping insertion order); and a text in which no parameter's
placeholder token occurs — in particular one whose placeholders all
reference unknown keys — is returned verbatim, never an error. -/
theorem template_substitutor_semantics (params : ParamSet) (text s : Str)
    (n : Int) (b : Bool) (fields : List (Str × JValue)) (items : List JValue) :
    (substitute_params_deep params (.str s) = .str (substitute_params s params)) ∧
    (substitute_params_deep params (.obj fields) =
      .obj (fields.map (fun kv => (kv.1, substitute_params_deep params kv.2)))) ∧
    (substitute_params_deep params (.arr items) =
      .arr (items.map (substitute_params_deep params))) ∧
    (substitute_params_deep params (.num n) = .num n) ∧
    (substitute_params_deep params (.bool b) = .bool b) ∧
    (substitute_params_deep params .null = .null) ∧
    ((List.insertionSort keyLenGe (params.map Prod.fst)).Perm (params.map Prod.fst)) ∧
    ((List.insertionSort keyLenGe (params.map Prod.fst)).Sorted keyLenGe) ∧
    (∀ (pat rep s' : Str), pat ≠ [] → pat.isPrefixOf s' = true →
      replaceAll pat rep s' = rep ++ replaceAll pat rep (s'.drop pat.length)) ∧
    ((∀ k ∈ params.map Prod.fst, ¬ placeholderToken k <:+: text) →
      substitute_params text params = text) := by
  refine ⟨by rw [substitute_params_deep], by rw [substitute_params_deep, substFields_eq_map],
    by rw [substitute_params_deep, substItems_eq_map], by rw [substitute_params_deep],
    by rw [substitute_params_deep], by rw [substitute_params_deep],
    List.perm_insertionSort keyLenGe (params.map Prod.fst),
    List.sorted_insertionSort keyLenGe (params.map Prod.fst),
    replaceAll_head_occurrence, ?_⟩
  intro h
  unfold substitute_params
  exact foldl_replace_of_no_tokens params text _
    (fun k hk => h k ((List.perm_insertionSort keyLenGe _).mem_iff.mp hk))

/-- C5 witness: the theorem applied at a concrete template and
parameter set; a text whose only placeholder references an unknown key
is returned verbatim, and a matched placeholder is substituted. -/
theorem template_substitutor_semantics_witness :
    ((∀ k ∈ ([("path.basename".data, JValue.str "demo".data)] : ParamSet).map Prod.fst,
        ¬ placeholderToken k <:+: "x-\x7b\x7bunknown\x7d\x7d".data) →
      substitute_params "x-\x7b\x7bunknown\x7d\x7d".data
        [("path.basename".data, JValue.str "demo".data)] =
        "x-\x7b\x7bunknown\x7d\x7d".data) ∧
    (substitute_params "x-\x7b\x7bunknown\x7d\x7d".data
        [("path.basename".data, JValue.str "demo".data)] =
      "x-\x7b\x7bunknown\x7d\x7d".data) ∧
    (substitute_params "app-\x7b\x7bpath.basename\x7d\x7d".data
        [("path.basename".data, JValue.str "demo".data)] =
      "app-demo".data) :=
  ⟨(template_substitutor_semantics [("path.basename".data, JValue.str "demo".data)]
      "x-\x7b\x7bunknown\x7d\x7d".data [] 0 false [] []).2.2.2.2.2.2.2.2.2,
   (template_substitutor_semantics [("path.basename".data, JValue.str "demo".data)]
      "x-\x7b\x7bunknown\x7d\x7d".data [] 0 false [] []).2.2.2.2.2.2.2.2.2
     (by decide),
   by simp [substitute_params, replaceAll, placeholderToken, alistGet, pyStr]⟩

theorem char_toNat_inj {c d : Char} (h : c.toNat = d.toNat) : c = d :=
  Char.ext (UInt32.ext h)

theorem pyLowerChar_toNat_of_upper (c : Char) (h : 65 ≤ c.toNat ∧ c.toNat ≤ 90) :
    (pyLowerChar c).toNat = c.toNat + 32 := by
  rw [pyLowerChar, dif_pos h]
  rfl

theorem pyLowerChar_eq_self_of_not_upper (c : Char)
    (h : ¬(65 ≤ c.toNat ∧ c.toNat ≤ 90)) : pyLowerChar c = c := by
  rw [pyLowerChar, dif_neg h]

theorem isAllowedChar_iff (c : Char) :
    isAllowedChar c = true ↔
      (65 ≤ c.toNat ∧ c.toNat ≤ 90) ∨ (97 ≤ c.toNat ∧ c.toNat ≤ 122) ∨
        (48 ≤ c.toNat ∧ c.toNat ≤ 57) ∨ c.toNat = 45 := by
  simp only [isAllowedChar, Bool.or_eq_true, Bool.and_eq_true, decide_eq_true_eq,
    beq_iff_eq]
  omega

/-- The output character class of `_normalize_name`:
lowercase ASCII letter, digit, or hyphen (`^[a-z0-9-]*$`). -/
def isLowerNormChar (c : Char) : Prop :=
  (97 ≤ c.toNat ∧ c.toNat ≤ 122) ∨ (48 ≤ c.toNat ∧ c.toNat ≤ 57) ∨ c = '-'

theorem pyLowerChar_lowerNorm_of_allowed (c : Char) (h : isAllowedChar c = true) :
    isLowerNormChar (pyLowerChar c) := by
  rw [isAllowedChar_iff] at h
  by_cases hu : 65 ≤ c.toNat ∧ c.toNat ≤ 90
  · left
    rw [pyLowerChar_toNat_of_upper c hu]
    omega
  · rw [pyLowerChar_eq_self_of_not_upper c hu]
    rcases h with h | h | h | h
    · exact absurd h hu
    · exact Or.inl h
    · exact Or.inr (Or.inl h)
    · exact Or.inr (Or.inr (char_toNat_inj (by simpa using h)))

theorem pyLowerChar_eq_self_of_lowerNorm (c : Char) (h : isLowerNormChar c) :
    pyLowerChar c = c := by
  apply pyLowerChar_eq_self_of_not_upper
  rcases h with h | h | h
  · omega
  · omega
  · subst h; decide

theorem pyLowerChar_ne_dash (c : Char) (h : pyLowerChar c ≠ '-') : c ≠ '-' := by
  intro he
  subst he
  exact h (pyLowerChar_eq_self_of_not_upper _ (by decide))

theorem pyLowerChar_dash_iff (c : Char) : pyLowerChar c = '-' ↔ c = '-' := by
  constructor
  · intro h
    by_cases hu : 65 ≤ c.toNat ∧ c.toNat ≤ 90
    · exfalso
      have := congrArg Char.toNat h
      rw [pyLowerChar_toNat_of_upper c hu] at this
      simp only [show ('-').toNat = 45 from rfl] at this
      omega
    · rwa [pyLowerChar_eq_self_of_not_upper c hu] at h
  · intro h
    subst h
    exact pyLowerChar_eq_self_of_not_upper _ (by decide)

theorem isLowerNormChar_allowed (c : Char) (h : isLowerNormChar c) :
    isAllowedChar c = true := by
  rw [isAllowedChar_iff]
  rcases h with h | h | h
  · exact Or.inr (Or.inl h)
  · exact Or.inr (Or.inr (Or.inl h))
  · subst h; exact Or.inr (Or.inr (Or.inr rfl))

theorem head?_dropWhile_not {α : Type} (p : α → Bool) (l : List α) (c : α)
    (h : (l.dropWhile p).head? = some c) : p c = false := by
  induction l with
  | nil => simp [List.dropWhile] at h
  | cons x xs ih =>
    rw [List.dropWhile_cons] at h
    by_cases hp : p x = true
    · rw [if_pos hp] at h
      exact ih h
    · rw [if_neg hp] at h
      simp only [List.head?_cons, Option.some.injEq] at h
      subst h
      simpa using hp

theorem dropWhile_mem {α : Type} (p : α → Bool) (l : List α) (c : α)
    (h : c ∈ l.dropWhile p) : c ∈ l :=
  (List.dropWhile_sublist p).mem h

theorem stripDashes_mem (l : List Char) (c : Char) (h : c ∈ stripDashes l) : c ∈ l := by
  unfold stripDashes at h
  rw [List.mem_reverse] at h
  have h₁ := dropWhile_mem _ _ _ h
  rw [List.mem_reverse] at h₁
  exact dropWhile_mem _ _ _ h₁

theorem stripDashes_getLast_ne (l : List Char) (c : Char)
    (h : (stripDashes l).getLast? = some c) : c ≠ '-' := by
  unfold stripDashes at h
  rw [List.getLast?_reverse] at h
  have := head?_dropWhile_not _ _ _ h
  simpa using this

theorem getLast?_dropWhile {α : Type} (p : α → Bool) (l : List α) :
    (l.dropWhile p).getLast? = l.getLast? ∨ l.dropWhile p = [] := by
  induction l with
  | nil => simp
  | cons x xs ih =>
    rw [List.dropWhile_cons]
    by_cases hp : p x = true
    · rw [if_pos hp]
      rcases ih with h | h
      · cases xs with
        | nil => right; simp [List.dropWhile]
        | cons y ys => left; rw [h]; simp
      · right; exact h
    · left; rw [if_neg hp]

theorem stripDashes_head_ne (l : List Char) (c : Char)
    (h₀ : ∀ d, (l.dropWhile (fun x => decide (x = '-'))).head? = some d → d ≠ '-')
    (h : (stripDashes l).head? = some c) : c ≠ '-' := by
  unfold stripDashes at h
  rw [List.head?_reverse] at h
  rcases getLast?_dropWhile (fun x => decide (x = '-'))
      ((l.dropWhile (fun x => decide (x = '-'))).reverse) with hcase | hcase
  · rw [hcase, List.getLast?_reverse] at h
    exact h₀ c h
  · rw [hcase] at h
    simp at h

theorem map_id_of_mem {α : Type} (l : List α) (f : α → α) (h : ∀ c ∈ l, f c = c) :
    l.map f = l := by
  induction l with
  | nil => rfl
  | cons x xs ih =>
    rw [List.map_cons, h x (List.mem_cons_self x xs),
      ih (fun c hc => h c (List.mem_cons_of_mem x hc))]

theorem mapped_allowed (s : Str) (c : Char)
    (h : c ∈ s.map (fun c => if isAllowedChar c then c else '-')) :
    isAllowedChar c = true := by
  obtain ⟨c', _, he⟩ := List.mem_map.mp h
  by_cases ha : isAllowedChar c' = true
  · rw [if_pos ha] at he
    exact he ▸ ha
  · rw [if_neg ha] at he
    subst he
    decide

theorem normalize_name_mem_lowerNorm (s : Str) (c : Char)
    (h : c ∈ _normalize_name s) : isLowerNormChar c := by
  unfold _normalize_name at h
  obtain ⟨c', hc', he⟩ := List.mem_map.mp h
  have h₁ := stripDashes_mem _ _ hc'
  have h₂ := mapped_allowed s c' h₁
  exact he ▸ pyLowerChar_lowerNorm_of_allowed c' h₂

theorem dropWhile_eq_self_of_head {α : Type} (p : α → Bool) (l : List α)
    (h : ∀ c, l.head? = some c → p c = false) : l.dropWhile p = l := by
  cases l with
  | nil => rfl
  | cons x xs =>
    rw [List.dropWhile_cons, if_neg]
    rw [h x rfl]
    simp

theorem stripDashes_eq_self (l : List Char) (h₁ : l.head? ≠ some '-')
    (h₂ : l.getLast? ≠ some '-') : stripDashes l = l := by
  unfold stripDashes
  rw [dropWhile_eq_self_of_head _ l (fun c hc => by
    simp only [decide_eq_false_iff_not]
    intro he
    exact h₁ (he ▸ hc))]
  rw [dropWhile_eq_self_of_head _ l.reverse (fun c hc => by
    rw [List.head?_reverse] at hc
    simp only [decide_eq_false_iff_not]
    intro he
    exact h₂ (he ▸ hc))]
  exact List.reverse_reverse l

/-- C8: the name normalizer is a total pure function; it is idempotent,
every character of its output is a lowercase letter, a digit or a
hyphen (`^[a-z0-9-]*$`), and the output neither starts nor ends with a
hyphen. -/
theorem normalize_name_idempotent_and_safe (s : Str) :
    _normalize_name (_normalize_name s) = _normalize_name s ∧
    (∀ c ∈ _normalize_name s, isLowerNormChar c) ∧
    (_normalize_name s).head? ≠ some '-' ∧
    (_normalize_name s).getLast? ≠ some '-' := by
  have hmem := normalize_name_mem_lowerNorm s
  have hmap : ∀ (l : Str), (∀ d, l.head? = some d → d ≠ '-') →
      ((l.map pyLowerChar).head? ≠ some '-') := by
    intro l h
    rw [List.head?_map]
    cases hc : l.head? with
    | none => exact fun h' => Option.noConfusion h'
    | some c₀ =>
      intro he
      exact (h c₀ hc) ((pyLowerChar_dash_iff c₀).mp (Option.some.inj he))
  have hmapLast : ∀ (l : Str), (∀ d, l.getLast? = some d → d ≠ '-') →
      ((l.map pyLowerChar).getLast? ≠ some '-') := by
    intro l h
    rw [List.getLast?_map]
    cases hc : l.getLast? with
    | none => exact fun h' => Option.noConfusion h'
    | some c₀ =>
      intro he
      exact (h c₀ hc) ((pyLowerChar_dash_iff c₀).mp (Option.some.inj he))
  have hhead : (_normalize_name s).head? ≠ some '-' := by
    unfold _normalize_name
    apply hmap
    intro d hd
    apply stripDashes_head_ne _ _ _ hd
    intro d' hd'
    have := head?_dropWhile_not _ _ _ hd'
    simp at this
    exact this
  have hlast : (_normalize_name s).getLast? ≠ some '-' := by
    unfold _normalize_name
    apply hmapLast
    intro d hd
    exact stripDashes_getLast_ne _ _ hd
  refine ⟨?_, hmem, hhead, hlast⟩
  conv_lhs => rw [_normalize_name]
  rw [map_id_of_mem _ _ (fun c hc =>
      if_pos (isLowerNormChar_allowed c (hmem c hc))),
    stripDashes_eq_self _ hhead hlast,
    map_id_of_mem _ _ (fun c hc => pyLowerChar_eq_self_of_lowerNorm c (hmem c hc))]

/-- C8 witness: the theorem applied at a concrete unnormalized name. -/
theorem normalize_name_idempotent_and_safe_witness :
    (_normalize_name (_normalize_name "My App!".data) =
      _normalize_name "My App!".data) ∧
    isLowerNormChar 'm' ∧
    ((_normalize_name "My App!".data).head? ≠ some '-') ∧
    ((_normalize_name "My App!".data).getLast? ≠ some '-') :=
  ⟨(normalize_name_idempotent_and_safe "My App!".data).1,
   (normalize_name_idempotent_and_safe "My App!".data).2.1 'm' (by decide),
   (normalize_name_idempotent_and_safe "My App!".data).2.2.1,
   (normalize_name_idempotent_and_safe "My App!".data).2.2.2⟩

theorem alistContains_set_self {v : Type} (m : List (Str × v)) (k : Str) (x : v) :
    alistContains (alistSet m k x) k = true := by
  rw [alistContains, alistGet_set_self]
  rfl

theorem alistContains_set_mono {v : Type} (m : List (Str × v)) (k k₀ : Str) (x : v)
    (h : alistContains m k₀ = true) : alistContains (alistSet m k x) k₀ = true := by
  by_cases hk : k₀ = k
  · subst hk
    exact alistContains_set_self m k₀ x
  · rwa [alistContains, alistGet_set_ne m k k₀ x hk]

theorem foldl_contains_mono {β : Type} (step : ParamSet → β → ParamSet)
    (hstep : ∀ p b k, alistContains p k = true → alistContains (step p b) k = true)
    (l : List β) (m : ParamSet) (k : Str) (h : alistContains m k = true) :
    alistContains (l.foldl step m) k = true := by
  induction l generalizing m with
  | nil => exact h
  | cons b rest ih => exact ih _ (hstep m b k h)

theorem foldl_contains_of_mem {β : Type} (step : ParamSet → β → ParamSet)
    (hstep : ∀ p b k, alistContains p k = true → alistContains (step p b) k = true)
    (l : List β) (b : β) (hb : b ∈ l) (m : ParamSet) (k : Str)
    (hset : ∀ p, alistContains (step p b) k = true) :
    alistContains (l.foldl step m) k = true := by
  induction l generalizing m with
  | nil => cases hb
  | cons b₀ rest ih =>
    rcases List.mem_cons.mp hb with rfl | hb₂
    · exact foldl_contains_mono step hstep rest _ k (hset m)
    · exact ih hb₂ _

theorem contains_update_mono {v : Type} (pairs : List (Str × v))
    (m : List (Str × v)) (k : Str) (h : alistContains m k = true) :
    alistContains (alistUpdate m pairs) k = true := by
  induction pairs generalizing m with
  | nil => exact h
  | cons kv rest ih => exact ih _ (alistContains_set_mono m kv.1 k kv.2 h)

theorem contains_update_of_mem {v : Type} (pairs : List (Str × v))
    (m : List (Str × v)) (k : Str) (h : k ∈ alistKeys pairs) :
    alistContains (alistUpdate m pairs) k = true := by
  induction pairs generalizing m with
  | nil => cases h
  | cons kv rest ih =>
    obtain ⟨k₀, v₀⟩ := kv
    rcases List.mem_cons.mp h with rfl | h₂
    · exact contains_update_mono rest _ k (alistContains_set_self m k v₀)
    · exact ih _ h₂

theorem setSub_mem (s xs : List Str) (y : Str) :
    y ∈ setSub s xs ↔ y ∈ s ∧ y ∉ xs := by
  unfold setSub
  rw [List.mem_filter]
  simp

theorem foldl_setUpdate_mem (matchF : Str → List Str) (pats : List Str)
    (s : List Str) (y : Str) :
    y ∈ pats.foldl (fun s pat => setUpdate s (matchF pat)) s ↔
      y ∈ s ∨ ∃ pat ∈ pats, y ∈ matchF pat := by
  induction pats generalizing s with
  | nil => simp
  | cons pat rest ih =>
    rw [List.foldl_cons, ih]
    unfold setUpdate
    rw [foldl_setAdd_mem]
    simp [or_assoc]

theorem foldl_setSub_mem (matchF : Str → List Str) (pats : List Str)
    (s : List Str) (y : Str) :
    y ∈ pats.foldl (fun s pat => setSub s (matchF pat)) s ↔
      y ∈ s ∧ ∀ pat ∈ pats, y ∉ matchF pat := by
  induction pats generalizing s with
  | nil => simp
  | cons pat rest ih =>
    rw [List.foldl_cons, ih, setSub_mem]
    constructor
    · rintro ⟨⟨hs, hp⟩, hrest⟩
      refine ⟨hs, ?_⟩
      intro q hq
      rcases List.mem_cons.mp hq with rfl | hq₂
      · exact hp
      · exact hrest q hq₂
    · rintro ⟨hs, hall⟩
      exact ⟨⟨hs, hall pat (List.mem_cons_self pat rest)⟩,
        fun q hq => hall q (List.mem_cons_of_mem pat hq)⟩

theorem foldl_setUpdate_nodup (matchF : Str → List Str) (pats : List Str)
    (s : List Str) (h : s.Nodup) :
    (pats.foldl (fun s pat => setUpdate s (matchF pat)) s).Nodup := by
  induction pats generalizing s with
  | nil => exact h
  | cons pat rest ih => exact ih _ (foldl_setAdd_nodup _ _ h)

theorem foldl_setSub_nodup (matchF : Str → List Str) (pats : List Str)
    (s : List Str) (h : s.Nodup) :
    (pats.foldl (fun s pat => setSub s (matchF pat)) s).Nodup := by
  induction pats generalizing s with
  | nil => exact h
  | cons pat rest ih => exact ih _ (List.Nodup.filter _ h)

theorem matchedDirsOf_mem (entries : List DirEntry) (matchF : Str → List Str)
    (x : Str) :
    x ∈ matchedDirsOf entries matchF ↔
      ((∃ e ∈ entries, e.exclude = false ∧ x ∈ matchF e.path) ∧
        ¬ ∃ e ∈ entries, e.exclude = true ∧ x ∈ matchF e.path) := by
  unfold matchedDirsOf
  rw [foldl_setSub_mem, foldl_setUpdate_mem]
  simp only [List.mem_map, List.mem_filter, Bool.not_eq_true', List.not_mem_nil,
    false_or]
  constructor
  · intro hfull
    obtain ⟨h₁, hnot⟩ := hfull
    obtain ⟨pat, ⟨e, ⟨he, hex⟩, rfl⟩, hm⟩ := h₁
    refine ⟨⟨e, he, hex, hm⟩, ?_⟩
    rintro ⟨e₂, he₂, hex₂, hm₂⟩
    exact hnot e₂.path ⟨e₂, ⟨he₂, hex₂⟩, rfl⟩ hm₂
  · intro hfull
    obtain ⟨⟨e, he, hex, hm⟩, hnot⟩ := hfull
    refine ⟨⟨e.path, ⟨e, ⟨he, hex⟩, rfl⟩, hm⟩, ?_⟩
    intro pat hpat hm₂
    obtain ⟨e₂, ⟨he₂, hex₂⟩, rfl⟩ := hpat
    exact hnot ⟨e₂, he₂, hex₂, hm₂⟩

theorem matchedDirsOf_nodup (entries : List DirEntry) (matchF : Str → List Str) :
    (matchedDirsOf entries matchF).Nodup := by
  unfold matchedDirsOf
  exact foldl_setSub_nodup matchF _ _ (foldl_setUpdate_nodup matchF _ _ List.nodup_nil)

/-- C7: the surviving directories are exactly the union of the include
matches minus the union of the exclude matches (plain set difference,
each path once), emitted in sorted path order, and every emitted
parameter set contains the `path`, `path.path`, `path.basename`,
`path.basenameNormalized` and per-component `path.segments.<i>` keys —
and, when a path-parameter prefix is configured, the same key family
again under the prefix. -/
theorem git_directory_generator_semantics (entries : List DirEntry)
    (matchF : Str → List Str) (pfx : Str) :
    (∀ x, x ∈ matchedDirsOf entries matchF ↔
      ((∃ e ∈ entries, e.exclude = false ∧ x ∈ matchF e.path) ∧
        ¬ ∃ e ∈ entries, e.exclude = true ∧ x ∈ matchF e.path)) ∧
    (matchedDirsOf entries matchF).Nodup ∧
    (_expand_git_directory_generator entries matchF pfx =
      (List.insertionSort pathLe (matchedDirsOf entries matchF)).map (dirParams pfx)) ∧
    ((List.insertionSort pathLe (matchedDirsOf entries matchF)).Perm
      (matchedDirsOf entries matchF)) ∧
    ((List.insertionSort pathLe (matchedDirsOf entries matchF)).Sorted pathLe) ∧
    (∀ d, alistContains (dirParams pfx d) "path".data = true ∧
      alistContains (dirParams pfx d) "path.path".data = true ∧
      alistContains (dirParams pfx d) "path.basename".data = true ∧
      alistContains (dirParams pfx d) "path.basenameNormalized".data = true ∧
      (∀ iseg ∈ (pathSegments d).enum,
        alistContains (dirParams pfx d)
          ("path.segments.".data ++ (toString iseg.1).data) = true) ∧
      (pfx ≠ [] →
        alistContains (dirParams pfx d) (pfx ++ '.' :: "path".data) = true ∧
        alistContains (dirParams pfx d) (pfx ++ '.' :: "path.path".data) = true ∧
        alistContains (dirParams pfx d) (pfx ++ '.' :: "path.basename".data) = true ∧
        alistContains (dirParams pfx d)
          (pfx ++ '.' :: "path.basenameNormalized".data) = true ∧
        ∀ iseg ∈ (pathSegments d).enum,
          alistContains (dirParams pfx d)
            (pfx ++ '.' :: "path.segments.".data ++ (toString iseg.1).data) = true)) := by
  refine ⟨matchedDirsOf_mem entries matchF, matchedDirsOf_nodup entries matchF, rfl,
    List.perm_insertionSort pathLe _, List.sorted_insertionSort pathLe _, ?_⟩
  intro d
  unfold dirParams
  set pfxDot : Str := (if pfx = [] then [] else pfx ++ ['.']) with hpfxDot
  have hstep : ∀ (p : ParamSet) (iseg : ℕ × Str) (k : Str),
      alistContains p k = true →
      alistContains
        (alistSet
          (alistSet p (pfxDot ++ "path.segments.".data ++ (toString iseg.1).data)
            (.str iseg.2))
          ("path.segments.".data ++ (toString iseg.1).data) (.str iseg.2)) k = true := by
    intro p iseg k h
    exact alistContains_set_mono _ _ _ _ (alistContains_set_mono _ _ _ _ h)
  have hbase : ∀ k, k ∈ ([pfxDot ++ "path".data, pfxDot ++ "path.path".data,
      pfxDot ++ "path.basename".data, pfxDot ++ "path.basenameNormalized".data,
      "path".data, "path.path".data, "path.basename".data,
      "path.basenameNormalized".data] : List Str) →
      alistContains
        (alistFromPairs
          [(pfxDot ++ "path".data, JValue.str d),
           (pfxDot ++ "path.path".data, JValue.str d),
           (pfxDot ++ "path.basename".data, JValue.str (pathBasename d)),
           (pfxDot ++ "path.basenameNormalized".data,
             JValue.str (_normalize_name (pathBasename d))),
           ("path".data, JValue.str d),
           ("path.path".data, JValue.str d),
           ("path.basename".data, JValue.str (pathBasename d)),
           ("path.basenameNormalized".data,
             JValue.str (_normalize_name (pathBasename d)))]) k = true := by
    intro k hk
    exact contains_update_of_mem _ _ k (by simpa [alistKeys] using hk)
  have hfold_base : ∀ k, alistContains
      (alistFromPairs
        [(pfxDot ++ "path".data, JValue.str d),
         (pfxDot ++ "path.path".data, JValue.str d),
         (pfxDot ++ "path.basename".data, JValue.str (pathBasename d)),
         (pfxDot ++ "path.basenameNormalized".data,
           JValue.str (_normalize_name (pathBasename d))),
         ("path".data, JValue.str d),
         ("path.path".data, JValue.str d),
         ("path.basename".data, JValue.str (pathBasename d)),
         ("path.basenameNormalized".data,
           JValue.str (_normalize_name (pathBasename d)))]) k = true →
      alistContains
        ((pathSegments d).enum.foldl
          (fun p iseg =>
            alistSet
              (alistSet p (pfxDot ++ "path.segments.".data ++ (toString iseg.1).data)
                (.str iseg.2))
              ("path.segments.".data ++ (toString iseg.1).data) (.str iseg.2))
          (alistFromPairs
            [(pfxDot ++ "path".data, JValue.str d),
             (pfxDot ++ "path.path".data, JValue.str d),
             (pfxDot ++ "path.basename".data, JValue.str (pathBasename d)),
             (pfxDot ++ "path.basenameNormalized".data,
               JValue.str (_normalize_name (pathBasename d))),
             ("path".data, JValue.str d),
             ("path.path".data, JValue.str d),
             ("path.basename".data, JValue.str (pathBasename d)),
             ("path.basenameNormalized".data,
               JValue.str (_normalize_name (pathBasename d)))])) k = true := by
    intro k h
    exact foldl_contains_mono _ hstep _ _ _ h
  refine ⟨hfold_base _ (hbase _ (by simp)), hfold_base _ (hbase _ (by simp)),
    hfold_base _ (hbase _ (by simp)), hfold_base _ (hbase _ (by simp)), ?_, ?_⟩
  · intro iseg hseg
    refine foldl_contains_of_mem _ hstep _ iseg hseg _ _ ?_
    intro p
    exact alistContains_set_self _ _ _
  · intro hne
    have hdot : pfxDot = pfx ++ ['.'] := by
      rw [hpfxDot, if_neg hne]
    have hkey : ∀ (t : Str), pfx ++ '.' :: t = pfxDot ++ t := by
      intro t
      rw [hdot, List.append_assoc]
      rfl
    refine ⟨?_, ?_, ?_, ?_, ?_⟩
    · rw [hkey]; exact hfold_base _ (hbase _ (by simp))
    · rw [hkey]; exact hfold_base _ (hbase _ (by simp))
    · rw [hkey]; exact hfold_base _ (hbase _ (by simp))
    · rw [hkey]; exact hfold_base _ (hbase _ (by simp))
    · intro iseg hseg
      rw [hkey]
      refine foldl_contains_of_mem _ hstep _ iseg hseg _ _ ?_
      intro p
      exact alistContains_set_mono _ _ _ _ (alistContains_set_self _ _ _)

/-- A concrete glob-match fixture for the directory-generator witness:
`apps/*` matches two directories, `apps/b` matches itself. -/
def dirMatchFixture : Str → List Str := fun pat =>
  if pat = "apps/*".data then ["apps/a".data, "apps/b".data]
  else if pat = "apps/b".data then ["apps/b".data]
  else []

/-- C7 witness: the theorem applied at a concrete include/exclude
configuration with prefix `p`, with the per-segment and nonempty-prefix
hypotheses discharged at concrete values. -/
theorem git_directory_generator_semantics_witness :
    ("apps/a".data ∈
        matchedDirsOf [⟨"apps/*".data, false⟩, ⟨"apps/b".data, true⟩] dirMatchFixture ↔
      ((∃ e ∈ [(⟨"apps/*".data, false⟩ : DirEntry), ⟨"apps/b".data, true⟩],
          e.exclude = false ∧ "apps/a".data ∈ dirMatchFixture e.path) ∧
        ¬ ∃ e ∈ [(⟨"apps/*".data, false⟩ : DirEntry), ⟨"apps/b".data, true⟩],
          e.exclude = true ∧ "apps/a".data ∈ dirMatchFixture e.path)) ∧
    (alistContains (dirParams "p".data "apps/a".data)
      ("path.segments.".data ++ (toString (0 : ℕ)).data) = true) ∧
    (alistContains (dirParams "p".data "apps/a".data)
      ("p".data ++ '.' :: "path".data) = true) :=
  ⟨(git_directory_generator_semantics
      [⟨"apps/*".data, false⟩, ⟨"apps/b".data, true⟩] dirMatchFixture "p".data).1
      "apps/a".data,
   ((git_directory_generator_semantics
      [⟨"apps/*".data, false⟩, ⟨"apps/b".data, true⟩] dirMatchFixture
      "p".data).2.2.2.2.2 "apps/a".data).2.2.2.2.1 (0, "apps".data) (by decide),
   (((git_directory_generator_semantics
      [⟨"apps/*".data, false⟩, ⟨"apps/b".data, true⟩] dirMatchFixture
      "p".data).2.2.2.2.2 "apps/a".data).2.2.2.2.2 (by decide)).1⟩
